import Mathlib

/-!
Shallow embedding of the markdown normalizer (`src/markdown.rs`) of the
pkt-tui repository, together with theorems settling the frozen claims
about it.  Rust strings are modelled as `List Char`; Rust byte-index
slicing (`&s[..n]`, `&s[n..]`), which panics when the index is not a
UTF-8 character boundary, is modelled by `byteTake` / `byteDrop`
returning `Option`; a panic anywhere in the pipeline surfaces as `none`.
Function names follow the Rust source.
-/

set_option maxRecDepth 8000
set_option linter.unusedVariables false

namespace PktMarkdown

abbrev Str := List Char

/-- Backtick character, written via its code point. -/
def bq : Char := Char.ofNat 96

/-- Single-quote character, written via its code point. -/
def sq : Char := Char.ofNat 39

/-- Double-quote character, written via its code point. -/
def dq : Char := Char.ofNat 34

/-- Model of Rust `char::is_whitespace`: the Unicode White_Space property
(full 25-code-point list). -/
def rustIsWhitespace (c : Char) : Bool :=
  let n := c.toNat
  n = 0x9 || n = 0xA || n = 0xB || n = 0xC || n = 0xD || n = 0x20 ||
  n = 0x85 || n = 0xA0 || n = 0x1680 || (0x2000 ≤ n && n ≤ 0x200A) ||
  n = 0x2028 || n = 0x2029 || n = 0x202F || n = 0x205F || n = 0x3000

/-- Model of Rust `char::is_alphanumeric` on the ASCII range (every input
this development evaluates the comparison normalizer on is ASCII). -/
def rustIsAlphanumeric (c : Char) : Bool :=
  (('a' ≤ c && c ≤ 'z') || ('A' ≤ c && c ≤ 'Z') || ('0' ≤ c && c ≤ '9'))

def isAsciiDigitC (c : Char) : Bool := '0' ≤ c && c ≤ '9'

def isAsciiLowerC (c : Char) : Bool := 'a' ≤ c && c ≤ 'z'

/-- Rust `str::trim_start` (strips leading whitespace). -/
def rustTrimStart (s : Str) : Str := s.dropWhile rustIsWhitespace

/-- Rust `str::trim_end` (strips trailing whitespace). -/
def rustTrimEnd (s : Str) : Str := (s.reverse.dropWhile rustIsWhitespace).reverse

/-- Rust `str::trim`. -/
def rustTrim (s : Str) : Str := rustTrimStart (rustTrimEnd s)

/-- Helper for `splitWhitespace`: accumulates the current token reversed. -/
def splitWSAux : Str → Str → List Str
  | [], cur => if cur = [] then [] else [cur.reverse]
  | c :: rest, cur =>
    if rustIsWhitespace c then
      if cur = [] then splitWSAux rest [] else cur.reverse :: splitWSAux rest []
    else splitWSAux rest (c :: cur)

/-- Rust `str::split_whitespace`: whitespace-separated tokens, no empties. -/
def splitWhitespace (s : Str) : List Str := splitWSAux s []

/-- Rust `slice::join` on strings. -/
def joinWith (sep : Str) : List Str → Str
  | [] => []
  | [x] => x
  | x :: y :: ys => x ++ sep ++ joinWith sep (y :: ys)

/-- Rust `str::contains` for a literal pattern (substring test). -/
def strContains (hay pat : Str) : Bool :=
  (List.range (hay.length + 1)).any (fun i => pat.isPrefixOf (hay.drop i))

/-- Split a string at every newline; produces `n+1` segments for `n` newlines. -/
def splitOnNl : Str → List Str
  | [] => [[]]
  | c :: rest =>
    if c = '\n' then [] :: splitOnNl rest
    else
      match splitOnNl rest with
      | t :: ts => (c :: t) :: ts
      | [] => [[c]]

/-- Strip one trailing carriage return (the `\r` of a `\r\n` line ending). -/
def stripCr (l : Str) : Str := if l.getLast? = some '\r' then l.dropLast else l

/-- Rust `str::lines`: split at `\n`, strip a trailing `\r` from each
newline-terminated line, no final empty line for a trailing newline. -/
def rustLines (s : Str) : List Str :=
  match s with
  | [] => []
  | _ =>
    let segs := splitOnNl s
    match segs.getLast? with
    | some [] => segs.dropLast.map stripCr
    | _ => segs.dropLast.map stripCr ++ [(segs.getLast?).getD []]

/-- Rust `plain.split("\n\n").next()`: the text before the first blank line. -/
def firstPara : Str → Str
  | [] => []
  | c :: rest =>
    if c = '\n' && rest.head? == some '\n' then []
    else c :: firstPara rest

inductive ListMarker where
  | Number
  | Letter
  | Bullet
  | None
deriving DecidableEq, Repr

inductive BlockType where
  | Header
  | ListItem (depth : Nat) (marker : ListMarker)
  | CodeBlockStart
  | CodeBlockEnd
  | Normal
deriving DecidableEq, Repr

/-- `normalize_for_comparison` from the source: keep alphanumeric and
whitespace characters, then single-space the tokens. -/
def normalize_for_comparison (text : Str) : Str :=
  joinWith (" ".toList)
    (splitWhitespace (text.filter (fun c => rustIsAlphanumeric c || rustIsWhitespace c)))

/-- Rust `slice::windows(3)`. -/
def windows3 : List Str → List (List Str)
  | a :: b :: c :: rest => [a, b, c] :: windows3 (b :: c :: rest)
  | _ => []

/-- The forward window scan of `find_content_boundaries`: index of the first
3-line window whose normalized join contains the pattern, default 0. -/
def startScanAux (pat : Str) : List (List Str) → Nat → Nat
  | [], _ => 0
  | w :: ws, i =>
    if strContains (normalize_for_comparison (joinWith (" ".toList) w)) pat then i
    else startScanAux pat ws (i + 1)

/-- The trailer condition of `find_content_boundaries`'s backward scan. -/
def isTrailerLine (line : Str) : Bool :=
  strContains line ("## Related posts".toList) ||
  strContains line ("Blog Comments".toList) ||
  strContains line ("Contents".toList) ||
  (("##".toList).isPrefixOf line && !strContains line ("Summary".toList))

/-- Backward scan from index `i` down: first trailer line strictly after
`startIdx` becomes the end index, default is the line count. -/
def endScanFrom (ls : List Str) (startIdx : Nat) : Nat → Nat
  | 0 => ls.length
  | i + 1 =>
    if i + 1 ≤ startIdx then ls.length
    else if isTrailerLine (ls.getD (i + 1) []) then i + 1
    else endScanFrom ls startIdx i

def endScan (ls : List Str) (startIdx : Nat) : Nat :=
  match ls.length with
  | 0 => ls.length
  | n + 1 => endScanFrom ls startIdx n

/-- `find_content_boundaries` from the source. -/
def find_content_boundaries (markdown plain : Str) : Nat × Nat :=
  let firstPlainPara := rustTrim (firstPara plain)
  let markdownLines := rustLines markdown
  let startIdx := startScanAux (normalize_for_comparison firstPlainPara) (windows3 markdownLines) 0
  let endIdx := endScan markdownLines startIdx
  (startIdx, endIdx)

/-- `get_list_marker` from the source. -/
def get_list_marker (line : Str) : ListMarker :=
  let trimmed := rustTrimStart line
  match (splitWhitespace trimmed).head? with
  | some firstToken =>
    if isAsciiDigitC (firstToken.headD ' ') then ListMarker.Number
    else if isAsciiLowerC (firstToken.headD ' ') then ListMarker.Letter
    else if firstToken.head? == some '*' || firstToken.head? == some '-' then ListMarker.Bullet
    else ListMarker.None
  | none => ListMarker.None

/-- The dot-counting loop of `get_list_depth`: scans the first token,
stopping at a terminator; returns (found_number flag, dot count). -/
def dotScan : Str → Bool → Nat → Bool × Nat
  | [], found, dots => (found, dots)
  | c :: rest, found, dots =>
    if c = bq || c = '[' || c = '<' || c = sq || c = dq || c = '(' then (found, dots)
    else if isAsciiDigitC c then dotScan rest true dots
    else if c = '.' && found then dotScan rest false (dots + 1)
    else dotScan rest found dots

/-- `get_list_depth` from the source. -/
def get_list_depth (line : Str) : Nat :=
  let spaces := (line.takeWhile rustIsWhitespace).length
  let trimmed := rustTrimStart line
  match (splitWhitespace trimmed).head? with
  | some firstToken =>
    let fd := dotScan firstToken false 0
    if fd.2 > 0 then (if fd.1 then fd.2 else fd.2 - 1)
    else spaces / 4
  | none => 0

/-- `get_block_type` from the source (the `in_list` parameter is unused
there as well). -/
def get_block_type (line : Str) (isInCodeBlock : Bool) (inList : Bool) : BlockType :=
  let trimmed := rustTrimStart line
  if trimmed = [] then BlockType.Normal
  else if trimmed.head? == some '#' then BlockType.Header
  else
    let marker := get_list_marker trimmed
    if marker ≠ ListMarker.None then BlockType.ListItem (get_list_depth line) marker
    else if ("```".toList).isPrefixOf trimmed then
      (if isInCodeBlock then BlockType.CodeBlockEnd else BlockType.CodeBlockStart)
    else BlockType.Normal

/-- `indent_line` from the source: 4 spaces per depth level plus the
start-trimmed line. -/
def indent_line (line : Str) (depth : Nat) : Str :=
  (List.replicate depth ("    ".toList)).flatten ++ rustTrimStart line

/-- `normalize_list_item` from the source. -/
def normalize_list_item (line : Str) (depth : Nat) : Str :=
  let trimmed := rustTrimStart line
  if depth > 0 then indent_line trimmed depth else trimmed

/-- `is_list_continuation` from the source. -/
def is_list_continuation (line : Str) (prevBlockType : BlockType) : Bool :=
  match prevBlockType with
  | BlockType.ListItem depth _ =>
    let lineDepth := get_list_depth line
    let trimmed := rustTrimStart line
    if get_list_marker trimmed ≠ ListMarker.None then false
    else decide (lineDepth > depth) ||
      (decide (lineDepth = depth) && !(trimmed.head? == some '#'))
  | _ => false

/-- `needs_spacing_before` from the source. -/
def needs_spacing_before (blockType prevBlockType : BlockType) : Bool :=
  match blockType with
  | BlockType.Header => true
  | BlockType.ListItem _ _ =>
    (match prevBlockType with
     | BlockType.ListItem _ _ => false
     | _ => true)
  | BlockType.CodeBlockStart => true
  | _ => false

/-- `needs_spacing_after` from the source. -/
def needs_spacing_after (blockType nextBlockType : BlockType) : Bool :=
  match blockType with
  | BlockType.Header => true
  | BlockType.ListItem _ _ =>
    (match nextBlockType with
     | BlockType.ListItem _ _ => false
     | _ => true)
  | BlockType.CodeBlockEnd => true
  | BlockType.Normal =>
    (match nextBlockType with
     | BlockType.Header => true
     | BlockType.ListItem _ _ => true
     | BlockType.Normal => true
     | _ => false)
  | _ => false

/-- UTF-8 byte length of a string. -/
def utf8Len (s : Str) : Nat := (s.map Char.utf8Size).sum

/-- Rust `&s[..n]` where `n` is a byte index: `none` models the panic on a
non-character-boundary or out-of-range index. -/
def byteTake : Str → Nat → Option Str
  | _, 0 => some []
  | [], _ + 1 => none
  | c :: cs, n + 1 =>
    if c.utf8Size ≤ n + 1 then (byteTake cs (n + 1 - c.utf8Size)).map (c :: ·)
    else none

/-- Rust `&s[n..]` where `n` is a byte index: `none` models the panic. -/
def byteDrop : Str → Nat → Option Str
  | s, 0 => some s
  | [], _ + 1 => none
  | c :: cs, n + 1 =>
    if c.utf8Size ≤ n + 1 then byteDrop cs (n + 1 - c.utf8Size)
    else none

/-- The `<`/`>` depth fold of `is_in_code_or_link`. -/
def angleCount : Str → Int → Int
  | [], d => d
  | c :: rest, d =>
    angleCount rest (if c = '<' then d + 1 else if c = '>' then d - 1 else d)

/-- The bracket/paren loop of `is_in_code_or_link` with its one-character
lookahead after `]`; returns (in_brackets, in_parens). -/
def bpScan : Str → Int → Int → Int × Int
  | [], b, p => (b, p)
  | c :: rest, b, p =>
    if c = '[' then bpScan rest (b + 1) p
    else if c = ']' then
      bpScan rest (b - 1) (if b - 1 = 0 && rest.head? == some '(' then p + 1 else p)
    else if c = '(' then bpScan rest b (if b = 0 then p + 1 else p)
    else if c = ')' then bpScan rest b (if b = 0 then p - 1 else p)
    else bpScan rest b p

/-- Body of `is_in_code_or_link` applied to the already-sliced prefix. -/
def protBefore (before : Str) : Bool :=
  let backticks := before.count bq
  if backticks % 2 ≠ 0 then true
  else if angleCount before 0 > 0 then true
  else
    let bp := bpScan before 0 0
    decide (bp.1 > 0) || decide (bp.2 > 0)

/-- `is_in_code_or_link` from the source; the slice `&text[..pos]` uses the
character-enumeration index as a byte index, so it can panic (`none`). -/
def is_in_code_or_link (text : Str) (pos : Nat) : Option Bool :=
  (byteTake text pos).map protBefore

/-- The character loop of `split_header_content`; `current`/`result` are the
accumulators of the source, `none` models a panic. -/
def splitLoop (line : Str) : List (Nat × Char) → Str → List Str → Option (List Str)
  | [], current, result =>
    some (result ++ (if rustTrim current = [] then [] else [rustTrim current]))
  | (pos, c) :: rest, current, result =>
    if c = '#' then
      match is_in_code_or_link line pos with
      | none => none
      | some prot =>
        if prot then splitLoop line rest (current ++ [c]) result
        else
          match byteDrop line pos with
          | none => none
          | some dropped =>
            let hashRun := dropped.takeWhile (fun x => x == '#')
            let afterHash := pos + utf8Len hashRun
            if decide (afterHash < utf8Len line) &&
               (((line.get? afterHash).map rustIsWhitespace).getD false ||
                decide (afterHash = utf8Len line)) then
              let fl := if rustTrim current = [] then (result, current)
                        else (result ++ [rustTrim current], ([] : Str))
              let current₂ := fl.2 ++ dropped
              some (fl.1 ++ (if rustTrim current₂ = [] then [] else [rustTrim current₂]))
            else splitLoop line rest (current ++ [c]) result
    else splitLoop line rest (current ++ [c]) result

/-- `split_header_content` from the source. -/
def split_header_content (line : Str) : Option (List Str) :=
  splitLoop line line.enum [] []

/-- The per-sub-line text normalization of `normalize_markdown`
(source lines 353-383), depending only on the current and previous block
types and the sub-line. -/
def normalizedLineFor (currentType prevBlockType : BlockType) (s : Str) : Str :=
  match currentType with
  | BlockType.ListItem depth marker =>
    let actualDepth : Nat :=
      match prevBlockType with
      | BlockType.ListItem prevDepth prevMarker =>
        (match prevMarker, marker with
         | ListMarker.Number, ListMarker.Letter => prevDepth + 1
         | ListMarker.Letter, ListMarker.Number => max 0 (prevDepth - 1)
         | _, _ => depth)
      | _ => 0
    normalize_list_item s actualDepth
  | BlockType.Normal =>
    (match prevBlockType with
     | BlockType.ListItem depth _ =>
       if is_list_continuation s prevBlockType then indent_line s (depth + 1) else s
     | _ => s)
  | _ => s

structure NormState where
  result : List Str
  currentBlock : List Str
  inCodeBlock : Bool
  prevBlockType : BlockType
  inList : Bool
deriving DecidableEq, Repr

/-- Flush: push the `\n`-joined block onto the result when non-empty. -/
def flushNl (r b : List Str) : List Str :=
  if b = [] then r else r ++ [joinWith ("\n".toList) b]

def isListItemB : BlockType → Bool
  | BlockType.ListItem _ _ => true
  | _ => false

/-- Body of the inner sub-line loop of `normalize_markdown`. -/
def processSubLine (contentLines : List Str) (i numSplits j : Nat) (s : Str)
    (st : NormState) : NormState :=
  if s = [] then st
  else
    let icb := if ("```".toList).isPrefixOf s then !st.inCodeBlock else st.inCodeBlock
    let isCont := !s.isEmpty && is_list_continuation s st.prevBlockType
    let currentType := if isCont then st.prevBlockType else get_block_type s icb st.inList
    let st₁ : NormState :=
      match currentType with
      | BlockType.ListItem _ _ =>
        if !st.inList then
          { st with
            inList := true
            result := flushNl st.result st.currentBlock
            currentBlock := [] }
        else st
      | _ =>
        if !isCont && !isListItemB currentType && st.inList then
          { st with
            inList := false
            result := flushNl st.result st.currentBlock
            currentBlock := [] }
        else st
    let st₂ :=
      if decide (j > 0) && currentType == BlockType.Header then
        { st₁ with result := flushNl st₁.result st₁.currentBlock, currentBlock := [] }
      else st₁
    let nextType :=
      if i < contentLines.length - 1 then
        get_block_type (contentLines.getD (i + 1) []) icb st₂.inList
      else BlockType.Normal
    let st₃ :=
      if needs_spacing_before currentType st.prevBlockType && !(st₂.currentBlock = []) then
        { st₂ with
          result := st₂.result ++ [joinWith ("\n*".toList) st₂.currentBlock]
          currentBlock := [] }
      else st₂
    let normalized := normalizedLineFor currentType st.prevBlockType s
    let block₄ := st₃.currentBlock ++ [normalized]
    let st₅ :=
      if decide (j = numSplits - 1) && needs_spacing_after currentType nextType &&
         !(isListItemB nextType && st₃.inList) then
        { st₃ with result := flushNl st₃.result block₄, currentBlock := [] }
      else { st₃ with currentBlock := block₄ }
    { st₅ with prevBlockType := currentType, inCodeBlock := icb }

/-- One line of the outer loop of `normalize_markdown`: right-trim, run the
header splitter, process each sub-line. -/
def processLine (contentLines : List Str) (i : Nat) (line : Str)
    (st : NormState) : Option NormState :=
  match split_header_content (rustTrimEnd line) with
  | none => none
  | some splitLines =>
    some (splitLines.enum.foldl
      (fun acc js => processSubLine contentLines i splitLines.length js.1 js.2 acc) st)

/-- `normalize_markdown` from the source; `none` models a panic. -/
def normalize_markdown (markdown plain : Str) : Option Str :=
  let markdownLines := rustLines markdown
  let bounds := find_content_boundaries markdown plain
  let contentLines := (markdownLines.take bounds.2).drop bounds.1
  let init : NormState := ⟨[], [], false, BlockType.Normal, false⟩
  match contentLines.enum.foldlM (fun st il => processLine contentLines il.1 il.2 st) init with
  | none => none
  | some finalSt =>
    let result := flushNl finalSt.result finalSt.currentBlock
    some (joinWith ("\n\n".toList) (result.filter (fun p => !p.isEmpty)))

/-- Claim-side protection predicate for a line prefix, phrased with the
counting conditions of claim C10: an odd number of backticks, more `<`
than `>`, an unmatched `[`, or an unmatched `(` counted outside brackets
(the bracket-aware paren balance of the source's scan). -/
def claimProtected (before : Str) : Bool :=
  decide (before.count bq % 2 = 1) ||
  decide (before.count '<' > before.count '>') ||
  decide (before.count '[' > before.count ']') ||
  decide ((bpScan before 0 0).2 > 0)

/-- Every `#` of the line sits at a position whose sliced prefix exists and
satisfies the claim-side protection predicate. -/
def allHashesProtectedByClaim (line : Str) : Bool :=
  line.enum.all (fun pc =>
    if pc.2 == '#' then
      (match byteTake line pc.1 with
       | some pre => claimProtected pre
       | none => false)
    else true)

/-- Normalized-form side conditions on one line: non-empty, no trailing
whitespace, a single physical line (no line breaks), not a code fence, and
left whole by the header splitter. -/
def goodLine (l : Str) : Bool :=
  !l.isEmpty && (rustTrimEnd l == l) &&
  l.all (fun c => !(c == '\n') && !(c == '\r')) &&
  !(("```".toList).isPrefixOf (rustTrimStart l)) &&
  (split_header_content l == some [rustTrim l])

/-- The effective depth the reflow engine assigns a list item, given the
previous block type (the depth-transition rule of the source). -/
def actualDepth (prev : BlockType) (d : Nat) (m : ListMarker) : Nat :=
  match prev with
  | BlockType.ListItem pd pm =>
    (match pm, m with
     | ListMarker.Number, ListMarker.Letter => pd + 1
     | ListMarker.Letter, ListMarker.Number => max 0 (pd - 1)
     | _, _ => d)
  | _ => 0

/-- A run of list-item lines, each classified as a list item and indented
exactly at its effective depth; threads the item type, returning the last. -/
def listTail (prev : BlockType) : List Str → Option BlockType
  | [] => some prev
  | l :: rest =>
    (match get_block_type (rustTrimStart l) false false with
     | BlockType.ListItem d m =>
       if normalize_list_item l (actualDepth prev d m) == l then
         listTail (BlockType.ListItem d m) rest
       else none
     | _ => none)

/-- One normalized block given the previous block type: a single line that
is prose, a header, a list item or a list continuation (each emitted
unchanged by the engine), or a multi-line run of list items. Returns the
block type the engine records after the block. -/
def blockOut (prev : BlockType) : List Str → Option BlockType
  | [] => none
  | [l] =>
    if is_list_continuation (rustTrimStart l) prev then
      (match prev with
       | BlockType.ListItem d _ =>
         if normalize_list_item l d == l then some prev else none
       | _ => none)
    else
      (match get_block_type (rustTrimStart l) false false with
       | BlockType.Normal =>
         if rustTrimStart l == l then some BlockType.Normal else none
       | BlockType.Header =>
         if rustTrimStart l == l then some BlockType.Header else none
       | BlockType.ListItem d m =>
         if normalize_list_item l (actualDepth prev d m) == l then
           some (BlockType.ListItem d m)
         else none
       | _ => none)
  | l :: l' :: rest => listTail prev (l :: l' :: rest)

/-- Thread `blockOut` through a sequence of blocks. -/
def blocksOut (prev : BlockType) : List (List Str) → Option BlockType
  | [] => some prev
  | b :: bs =>
    (match blockOut prev b with
     | some prevOut => blocksOut prevOut bs
     | none => none)

/-- The flat line sequence of blank-line-separated blocks. -/
def linesOf : List (List Str) → List Str
  | [] => []
  | [b] => b
  | b :: b' :: rest => b ++ [] :: linesOf (b' :: rest)

/-- The text of blank-line-separated blocks. -/
def normalizedText (bs : List (List Str)) : Str :=
  joinWith ("\n\n".toList) (bs.map (joinWith ("\n".toList)))

/-- A normalized-form input: a non-empty sequence of valid blocks of good
lines, the first line free of leading whitespace, the first block at most
three lines (so the boundary window matcher finds it), and no trailer line
after line 0. -/
def normalizedInput (bs : List (List Str)) : Bool :=
  !bs.isEmpty &&
  bs.all (fun b => !b.isEmpty && b.all goodLine) &&
  (blocksOut BlockType.Normal bs).isSome &&
  (rustTrimStart ((linesOf bs).headD []) == (linesOf bs).headD []) &&
  decide ((bs.headD []).length ≤ 3) &&
  ((linesOf bs).drop 1).all (fun l => !isTrailerLine l)

/-! ## Helper lemmas -/

theorem strContains_nil (hay : Str) : strContains hay [] = true := by
  unfold strContains
  rw [List.any_eq_true]
  exact ⟨0, List.mem_range.mpr (Nat.succ_pos _), by cases hay <;> rfl⟩

theorem strContains_of_prefix {hay pat : Str} (h : pat <+: hay) :
    strContains hay pat = true := by
  unfold strContains
  rw [List.any_eq_true]
  exact ⟨0, List.mem_range.mpr (Nat.succ_pos _),
    by simpa [List.isPrefixOf_iff_prefix] using h⟩

theorem mem_of_strContains {hay pat : Str} {c : Char}
    (h : strContains hay pat = true) (hc : c ∈ pat) : c ∈ hay := by
  unfold strContains at h
  rw [List.any_eq_true] at h
  obtain ⟨i, _, hi⟩ := h
  rw [List.isPrefixOf_iff_prefix] at hi
  exact List.drop_subset i hay (hi.subset hc)

/-! ## Claim theorems -/

/-- C1: the claim says `normalize_markdown` never fails on any UTF-8 input.
The code slices `&line[..pos]` and `&line[pos..]` with the character
enumeration index `pos` used as a byte index, so any multi-byte character
before a `#` makes the slice fall inside a character: on markdown `"é#"`
(plain `""`) the pipeline panics, modelled here as `none`. -/
theorem C1_core_panics_on_multibyte_input :
    normalize_markdown ("é#".toList) [] = none := by decide

/-- C2 counterexample: a list-item line whose freshly computed depth is 2
(`"1.2.3 item"`), processed with a previous block that is not a list item,
is emitted at depth 0 (un-indented) — not at the freshly computed depth as
the claim states. -/
theorem C2_counterexample_depth_zero_when_prev_not_list :
    get_list_depth ("1.2.3 item".toList) = 2 ∧
    normalize_markdown ("1.2.3 item".toList) ("1.2.3 item".toList) =
      some ("1.2.3 item".toList) ∧
    normalize_list_item ("1.2.3 item".toList) 2 ≠ ("1.2.3 item".toList) := by
  refine ⟨by decide, by decide, by decide⟩

/-- C2 amended: the effective depth of an emitted list item is the previous
item's depth + 1 on a Number→Letter transition, the previous item's depth − 1
(floored at 0 by the saturating subtraction) on a Letter→Number transition,
the freshly computed depth on every other transition between two list items,
and 0 — not the freshly computed depth — whenever the previous block is not a
list item. -/
theorem C2_effective_depth_selection (prev : BlockType) (d : Nat)
    (m : ListMarker) (s : Str) :
    normalizedLineFor (BlockType.ListItem d m) prev s =
      normalize_list_item s
        (match prev with
         | BlockType.ListItem pd pm =>
           (match pm, m with
            | ListMarker.Number, ListMarker.Letter => pd + 1
            | ListMarker.Letter, ListMarker.Number => pd - 1
            | _, _ => d)
         | _ => 0) := by
  cases prev with
  | ListItem pd pm => cases pm <;> cases m <;> simp [normalizedLineFor, Nat.zero_max]
  | _ => simp [normalizedLineFor]

/-- C3 counterexample: `"Some more"` after `"1. item"` satisfies the
continuation rule for the previous `ListItem` of depth 0, yet the emitted
output keeps it at depth 0 (no 4-space indent), not at depth 0 + 1 as the
claim states. -/
theorem C3_counterexample_continuation_same_depth :
    is_list_continuation ("Some more".toList)
      (BlockType.ListItem 0 ListMarker.Number) = true ∧
    normalize_markdown ("1. item\nSome more".toList) ("1. item\nSome more".toList) =
      some ("1. item\n\nSome more".toList) ∧
    ("1. item\n\nSome more".toList : Str) ≠ ("1. item\n\n    Some more".toList) := by
  refine ⟨by decide, by decide, by decide⟩

/-- C3 amended: a continuation sub-line inherits the previous `ListItem`
block type verbatim, so it is emitted through the list-item path at the
previous depth `d` (4·d spaces), not at `d + 1`; the `depth + 1` indent
branch of the `Normal` arm is unreachable for continuations. -/
theorem C3_continuation_emitted_at_prev_depth (s : Str) (d : Nat) (m : ListMarker)
    (h : is_list_continuation s (BlockType.ListItem d m) = true) :
    normalizedLineFor (BlockType.ListItem d m) (BlockType.ListItem d m) s =
      normalize_list_item s d := by
  cases m <;> simp [normalizedLineFor]

theorem C3_continuation_emitted_at_prev_depth_witness :
    is_list_continuation ("Some more".toList)
      (BlockType.ListItem 0 ListMarker.Number) = true ∧
    normalizedLineFor (BlockType.ListItem 0 ListMarker.Number)
      (BlockType.ListItem 0 ListMarker.Number) ("Some more".toList) =
      normalize_list_item ("Some more".toList) 0 :=
  ⟨by decide, C3_continuation_emitted_at_prev_depth ("Some more".toList) 0
    ListMarker.Number (by decide)⟩

/-- C4: on the seven-line input of the repository's own test, the code emits
`b. Sub item B` at zero indent (the Letter→Letter transition falls to the
freshly computed depth 0 of the un-indented line), so the output does not
indent both lettered items by 4 spaces as the claim — and the repository's
test `test_list_with_paragraphs_mixing_numbers_and_chars` — require. -/
theorem C4_mixed_marker_test_divergence :
    normalize_markdown
      ("Text before\n1. First item with continuation\n2. Second item\na. Sub item A\nb. Sub item B\n3. Third item\nSome text after the list.".toList)
      ("Text before\n1. First item with continuation\n2. Second item\na. Sub item A\nb. Sub item B\n3. Third item\nSome text after the list.".toList) =
      some ("Text before\n\n1. First item with continuation\n2. Second item\n    a. Sub item A\nb. Sub item B\n3. Third item\n\nSome text after the list.".toList) ∧
    ("Text before\n\n1. First item with continuation\n2. Second item\n    a. Sub item A\nb. Sub item B\n3. Third item\n\nSome text after the list.".toList : Str) ≠
      ("Text before\n\n1. First item with continuation\n2. Second item\n    a. Sub item A\n    b. Sub item B\n3. Third item\n\nSome text after the list.".toList) := by
  refine ⟨by decide, by decide⟩

/-- C5 counterexample: classification is not suppressed inside fenced code
blocks — with the code-block flag set, `"# hi"` is still classified `Header`
and `"1. x"` is still classified `ListItem`; on a full fenced input the
normalizer even inserts blank lines around the header inside the fence. -/
theorem C5_counterexample_header_inside_code_block :
    get_block_type ("# hi".toList) true false = BlockType.Header ∧
    get_block_type ("1. x".toList) true false =
      BlockType.ListItem 0 ListMarker.Number ∧
    normalize_markdown ("```\n# hi\n```".toList) ("```\n# hi\n```".toList) =
      some ("```\n\n# hi\n\n```".toList) := by
  refine ⟨by decide, by decide, by decide⟩

/-- C6: the claim (and the spec) say a line whose unprotected `#`-run runs to
the end of the line, with content before it, is split in two; in the code the
end-of-line disjunct `after_hash == line.len()` is dead under the guard
`after_hash < line.len()`, so `"abc #"` is returned un-split while the
whitespace-followed case `"abc # d"` does split. -/
theorem C6_eol_hash_run_not_split :
    split_header_content ("abc #".toList) = some [("abc #".toList)] ∧
    split_header_content ("abc # d".toList) =
      some [("abc".toList), ("# d".toList)] := by
  refine ⟨by decide, by decide⟩

/-- C7 counterexample: with an empty plain reference the located boundary is
not always the full range — on `"x\n## Foo"` the backward trailer scan stops
at the `##` line, the boundary is `(0, 1)` over 2 lines, and the tail is
trimmed away. -/
theorem C7_counterexample_trailer_trim_with_empty_plain :
    find_content_boundaries ("x\n## Foo".toList) [] = (0, 1) ∧
    (rustLines ("x\n## Foo".toList)).length = 2 ∧
    normalize_markdown ("x\n## Foo".toList) [] = some ("x".toList) := by
  refine ⟨by decide, by decide, by decide⟩

/-- C8 counterexample: `"Alpha\n\nSee Contents"` is already in normalized
form (two one-line prose blocks separated by exactly one blank line, no list
items), yet re-running the normalizer on it returns just `"Alpha"`: the
boundary scan treats the line containing `Contents` as a trailer and trims
the tail, so idempotence fails. -/
theorem C8_counterexample_trailer_breaks_idempotence :
    normalize_markdown ("Alpha\n\nSee Contents".toList)
      ("Alpha\n\nSee Contents".toList) = some ("Alpha".toList) ∧
    ("Alpha".toList : Str) ≠ ("Alpha\n\nSee Contents".toList) := by
  refine ⟨by decide, by decide⟩

/-- C9: the dot-counting depth rule — `"1."` gives 0, `"1.2."` gives 1,
`"1.2"` gives 1, `"1.2.3.1"` gives 3, scanning stops at a terminator
character (here a `[`, leaving depth 1), and a first token with no counted
dots falls back to floor(leading whitespace / 4). -/
theorem C9_list_depth_dot_rule :
    get_list_depth ("1.".toList) = 0 ∧
    get_list_depth ("1.2.".toList) = 1 ∧
    get_list_depth ("1.2".toList) = 1 ∧
    get_list_depth ("1.2.3.1".toList) = 3 ∧
    get_list_depth ("1.2.[3.4.5".toList) = 1 ∧
    (∀ line tok, (splitWhitespace (rustTrimStart line)).head? = some tok →
      (dotScan tok false 0).2 = 0 →
      get_list_depth line = (line.takeWhile rustIsWhitespace).length / 4) := by
  refine ⟨by decide, by decide, by decide, by decide, by decide, ?_⟩
  intro line tok h1 h2
  simp only [get_list_depth, h1, h2]
  simp

theorem C9_list_depth_dot_rule_witness :
    (splitWhitespace (rustTrimStart ("     hola".toList))).head? =
      some ("hola".toList) ∧
    (dotScan ("hola".toList) false 0).2 = 0 ∧
    get_list_depth ("     hola".toList) = 1 := by
  refine ⟨by decide, by decide, ?_⟩
  have h := C9_list_depth_dot_rule.2.2.2.2.2 ("     hola".toList) ("hola".toList)
    (by decide) (by decide)
  rw [h]; decide

/-- C5 amended: the code-block flag does not suppress classification — for
any line, whether it classifies as `Header`, and whether it classifies as a
given `ListItem`, is independent of the `in_code_block` flag (and of the
unused `in_list` flag); the flag only selects `CodeBlockStart` versus
`CodeBlockEnd` on fence lines. -/
theorem C5_flag_only_selects_fence_orientation (line : Str) (b₁ b₂ il₁ il₂ : Bool) :
    (get_block_type line b₁ il₁ = BlockType.Header ↔
      get_block_type line b₂ il₂ = BlockType.Header) ∧
    (∀ d m, get_block_type line b₁ il₁ = BlockType.ListItem d m ↔
      get_block_type line b₂ il₂ = BlockType.ListItem d m) := by
  constructor
  · simp only [get_block_type]
    split_ifs <;> simp_all
  · intro d m
    simp only [get_block_type]
    split_ifs <;> simp_all

theorem startScanAux_nil_pat (ws : List (List Str)) : startScanAux [] ws 0 = 0 := by
  cases ws with
  | nil => rfl
  | cons w ws' => simp [startScanAux, strContains_nil]

theorem endScanFrom_all_clear (ls : List Str)
    (h : ∀ i < ls.length, 0 < i → isTrailerLine (ls.getD i []) = false) :
    ∀ k, k < ls.length → endScanFrom ls 0 k = ls.length := by
  intro k
  induction k with
  | zero => intro _; rfl
  | succ n ih =>
    intro hk
    have hclear := h (n + 1) hk (Nat.succ_pos n)
    simp only [endScanFrom]
    rw [if_neg (by omega), if_neg (by simp only [hclear]; simp)]
    exact ih (by omega)

theorem endScan_all_clear (ls : List Str)
    (h : ∀ i < ls.length, 0 < i → isTrailerLine (ls.getD i []) = false) :
    endScan ls 0 = ls.length := by
  cases hl : ls.length with
  | zero => simp [endScan, hl]
  | succ n =>
    have hfin : endScanFrom ls 0 n = ls.length :=
      endScanFrom_all_clear ls h n (by omega)
    simp [endScan, hl, hfin]

/-- C7 amended: with an empty plain reference the start index is always 0 (so
the head of `m` is never trimmed), and the end index equals the total line
count exactly when no line after index 0 satisfies the trailer condition;
otherwise the backward trailer scan still trims the tail. -/
theorem C7_empty_plain_boundaries (m : Str) :
    (find_content_boundaries m []).1 = 0 ∧
    ((∀ i < (rustLines m).length, 0 < i →
        isTrailerLine ((rustLines m).getD i []) = false) →
      (find_content_boundaries m []).2 = (rustLines m).length) := by
  have hpat : normalize_for_comparison (rustTrim (firstPara [])) = [] := rfl
  constructor
  · simp only [find_content_boundaries, hpat]
    exact startScanAux_nil_pat _
  · intro h
    simp only [find_content_boundaries, hpat, startScanAux_nil_pat]
    exact endScan_all_clear _ h

theorem C7_empty_plain_boundaries_witness :
    (find_content_boundaries ("Alpha\nBeta".toList) []).1 = 0 ∧
    (find_content_boundaries ("Alpha\nBeta".toList) []).2 =
      (rustLines ("Alpha\nBeta".toList)).length :=
  ⟨(C7_empty_plain_boundaries ("Alpha\nBeta".toList)).1,
   (C7_empty_plain_boundaries ("Alpha\nBeta".toList)).2 (by decide)⟩

theorem angleCount_eq (s : Str) :
    ∀ d, angleCount s d = d + ((s.count '<' : Int) - s.count '>') := by
  induction s with
  | nil => intro d; simp [angleCount]
  | cons c rest ih =>
    intro d
    simp only [angleCount]
    rw [ih]
    by_cases h1 : c = '<'
    · simp [h1, List.count_cons]
      omega
    · by_cases h2 : c = '>'
      · simp [h1, h2, List.count_cons]
        omega
      · simp [h1, h2, List.count_cons, Ne.symm h1, Ne.symm h2]

theorem bpScan_fst (s : Str) :
    ∀ b p, (bpScan s b p).1 = b + ((s.count '[' : Int) - s.count ']') := by
  induction s with
  | nil => intro b p; simp [bpScan]
  | cons c rest ih =>
    intro b p
    simp only [bpScan]
    by_cases h1 : c = '['
    · simp [h1, ih, List.count_cons]
      omega
    · by_cases h2 : c = ']'
      · simp [h1, h2, ih, List.count_cons]
        omega
      · by_cases h3 : c = '('
        · simp [h1, h2, h3, ih, List.count_cons, Ne.symm h1, Ne.symm h2]
        · by_cases h4 : c = ')'
          · simp [h1, h2, h3, h4, ih, List.count_cons, Ne.symm h1, Ne.symm h2]
          · simp [h1, h2, h3, h4, ih, List.count_cons, Ne.symm h1, Ne.symm h2]

theorem claimProtected_protBefore {pre : Str} (h : claimProtected pre = true) :
    protBefore pre = true := by
  unfold claimProtected at h
  unfold protBefore
  by_cases h1 : pre.count bq % 2 ≠ 0
  · simp [h1]
  · rw [if_neg h1]
    have hodd : decide (pre.count bq % 2 = 1) = false := by
      simp only [ne_eq, not_not] at h1
      simp [h1]
    rw [hodd] at h
    simp only [Bool.false_or, Bool.or_eq_true, decide_eq_true_eq] at h
    by_cases h2 : angleCount pre 0 > 0
    · simp [h2]
    · rw [if_neg h2]
      rcases h with (h | h) | h
      · exfalso
        apply h2
        rw [angleCount_eq]
        omega
      · have hb : (bpScan pre 0 0).1 > 0 := by
          rw [bpScan_fst]
          omega
        simp [hb]
      · simp [h]

theorem mem_snd_of_mem_enum {α : Type} {l : List α} {pc : Nat × α} (h : pc ∈ l.enum) :
    pc.2 ∈ l := by
  rw [← List.enum_map_snd l]
  exact List.mem_map_of_mem Prod.snd h

theorem splitLoop_no_split (line : Str) :
    ∀ (chars : List (Nat × Char)) (current : Str) (result : List Str),
      (∀ pc ∈ chars, pc.2 = '#' → is_in_code_or_link line pc.1 = some true) →
      splitLoop line chars current result =
        some (result ++
          (if rustTrim (current ++ chars.map Prod.snd) = [] then []
           else [rustTrim (current ++ chars.map Prod.snd)])) := by
  intro chars
  induction chars with
  | nil =>
    intro current result h
    simp [splitLoop]
  | cons pc rest ih =>
    intro current result h
    obtain ⟨pos, c⟩ := pc
    by_cases hc : c = '#'
    · have hprot := h (pos, c) (List.mem_cons_self _ _) hc
      subst hc
      simp only at hprot
      simp only [splitLoop, if_pos rfl, hprot]
      rw [ih (current ++ ['#']) result
        (fun pc' hpc' => h pc' (List.mem_cons_of_mem _ hpc'))]
      simp [List.append_assoc]
    · simp only [splitLoop, if_neg hc]
      rw [ih (current ++ [c]) result
        (fun pc' hpc' => h pc' (List.mem_cons_of_mem _ hpc'))]
      simp [List.append_assoc]

/-- C10: header-split protection is decided purely by prefix delimiter
balance — if every `#` position of a line has a prefix (at the code's byte
slicing) with an odd backtick count, a `<`/`>` surplus, an unmatched `[`, or
an unmatched `(` counted outside brackets, then `split_header_content` never
splits the line: it returns the trimmed line whole (no actual link or tag
needs to be present). -/
theorem C10_protected_hash_never_splits (line : Str)
    (h : allHashesProtectedByClaim line = true) :
    split_header_content line =
      some (if rustTrim line = [] then [] else [rustTrim line]) := by
  unfold split_header_content
  have hh : ∀ pc ∈ line.enum, pc.2 = '#' → is_in_code_or_link line pc.1 = some true := by
    intro pc hpc hc
    obtain ⟨pos, c⟩ := pc
    simp only at hc
    subst hc
    unfold allHashesProtectedByClaim at h
    rw [List.all_eq_true] at h
    have hthis := h (pos, '#') hpc
    simp only [beq_self_eq_true, if_pos] at hthis
    cases hbt : byteTake line pos with
    | none => rw [hbt] at hthis; simp at hthis
    | some pre =>
      rw [hbt] at hthis
      simp only at hthis
      unfold is_in_code_or_link
      rw [hbt]
      simp [claimProtected_protBefore hthis]
  rw [splitLoop_no_split line line.enum [] [] hh]
  simp [List.enum_map_snd]

theorem C10_protected_hash_never_splits_witness :
    allHashesProtectedByClaim ("(a # b".toList) = true ∧
    split_header_content ("(a # b".toList) = some [("(a # b".toList)] := by
  refine ⟨by decide, ?_⟩
  have h := C10_protected_hash_never_splits ("(a # b".toList) (by decide)
  rw [h]
  decide

theorem mem_of_getLast_some {α : Type} {l : List α} {a : α}
    (h : l.getLast? = some a) : a ∈ l := by
  obtain ⟨hne, hx⟩ := List.mem_getLast?_eq_getLast (Option.mem_def.mpr h)
  rw [hx]
  exact List.getLast_mem hne

theorem splitOnNl_no_nl {s : Str} (h : ∀ c ∈ s, ¬c = '\n') : splitOnNl s = [s] := by
  induction s with
  | nil => rfl
  | cons c rest ih =>
    have hc := h c (List.mem_cons_self _ _)
    simp only [splitOnNl, if_neg hc]
    rw [ih (fun c' hc' => h c' (List.mem_cons_of_mem _ hc'))]

theorem splitOnNl_append {p : Str} (t : Str) (h : ∀ c ∈ p, ¬c = '\n') :
    splitOnNl (p ++ '\n' :: t) = p :: splitOnNl t := by
  induction p with
  | nil => simp [splitOnNl]
  | cons c rest ih =>
    have hc := h c (List.mem_cons_self _ _)
    simp only [List.cons_append, splitOnNl, if_neg hc]
    rw [List.append_eq, ih (fun c' hc' => h c' (List.mem_cons_of_mem _ hc'))]

theorem rustLines_cons (c : Char) (t : Str) :
    rustLines (c :: t) =
      (match (splitOnNl (c :: t)).getLast? with
       | some [] => (splitOnNl (c :: t)).dropLast.map stripCr
       | _ => (splitOnNl (c :: t)).dropLast.map stripCr ++
           [((splitOnNl (c :: t)).getLast?).getD []]) := rfl

theorem stripCr_id {x : Str} (h : ∀ c ∈ x, ¬c = '\r') : stripCr x = x := by
  unfold stripCr
  rw [if_neg]
  intro hlast
  exact h '\r' (mem_of_getLast_some hlast) rfl

theorem map_id_of_mem {α : Type} {l : List α} {f : α → α}
    (h : ∀ x ∈ l, f x = x) : l.map f = l := by
  induction l with
  | nil => rfl
  | cons a t ih =>
    simp only [List.map_cons, h a (List.mem_cons_self _ _),
      ih (fun x hx => h x (List.mem_cons_of_mem _ hx))]

theorem firstPara_no_nl {s : Str} (h : ∀ c ∈ s, ¬c = '\n') : firstPara s = s := by
  induction s with
  | nil => rfl
  | cons c rest ih =>
    have hc := h c (List.mem_cons_self _ _)
    simp only [firstPara, decide_eq_true_eq, hc, decide_False, Bool.false_and,
      Bool.false_eq_true, if_false]
    rw [ih (fun c' hc' => h c' (List.mem_cons_of_mem _ hc'))]

theorem firstPara_append {p : Str} (t : Str) (h : ∀ c ∈ p, ¬c = '\n') :
    firstPara (p ++ '\n' :: '\n' :: t) = p := by
  induction p with
  | nil => rfl
  | cons c rest ih =>
    have hc := h c (List.mem_cons_self _ _)
    simp only [List.cons_append, firstPara, decide_eq_true_eq, hc, decide_False,
      Bool.false_and, Bool.false_eq_true, if_false]
    rw [List.append_eq, ih (fun c' hc' => h c' (List.mem_cons_of_mem _ hc'))]

theorem rustTrim_fixed {p : Str} (h1 : rustTrimStart p = p) (h2 : rustTrimEnd p = p) :
    rustTrim p = p := by
  unfold rustTrim
  rw [h2, h1]

theorem splitWSAux_space (a : Str) : ∀ (cur : Str) (b : Str),
    splitWSAux (a ++ ' ' :: b) cur = splitWSAux a cur ++ splitWSAux b [] := by
  induction a with
  | nil =>
    intro cur b
    by_cases hcur : cur = []
    · simp [splitWSAux, hcur, rustIsWhitespace]
    · simp [splitWSAux, hcur, rustIsWhitespace]
  | cons c rest ih =>
    intro cur b
    by_cases hws : rustIsWhitespace c
    · by_cases hcur : cur = []
      · simp [splitWSAux, hws, hcur, ih]
      · simp [splitWSAux, hws, hcur, ih]
    · simp [splitWSAux, hws, ih]

theorem joinWith_prefix (sep : Str) : ∀ (w0 w1 : List Str),
    joinWith sep w0 <+: joinWith sep (w0 ++ w1)
  | [], w1 => by simp [joinWith, List.nil_prefix]
  | [x], w1 => by
    cases w1 with
    | nil => simp [joinWith, List.prefix_refl]
    | cons y ys =>
      simp only [List.cons_append, List.nil_append, joinWith]
      exact (List.prefix_append x (sep ++ joinWith sep (y :: ys))).trans
        (by rw [List.append_assoc])
  | x :: y :: w0', w1 => by
    simp only [List.cons_append, joinWith]
    obtain ⟨t, ht⟩ := joinWith_prefix sep (y :: w0') w1
    refine ⟨t, ?_⟩
    simp only [List.append_assoc, ht, List.append_eq, List.cons_append]

theorem nfc_prefix_double_space (p q : Str) :
    normalize_for_comparison p <+:
      normalize_for_comparison (p ++ ' ' :: ' ' :: q) := by
  unfold normalize_for_comparison
  rw [List.filter_append]
  have hsp : (fun c => rustIsAlphanumeric c || rustIsWhitespace c) ' ' = true := by decide
  simp only [List.filter_cons, hsp, if_true]
  unfold splitWhitespace
  rw [splitWSAux_space]
  have hsk : splitWSAux (' ' :: (q.filter (fun c => rustIsAlphanumeric c || rustIsWhitespace c))) [] =
      splitWSAux (q.filter (fun c => rustIsAlphanumeric c || rustIsWhitespace c)) [] := by
    simp [splitWSAux, rustIsWhitespace]
  rw [hsk]
  exact joinWith_prefix _ _ _

theorem joinSpace_three (p q : Str) :
    joinWith (" ".toList) [p, [], q] = p ++ ' ' :: ' ' :: q := by
  simp [joinWith]

theorem get_block_type_nil (b il : Bool) : get_block_type [] b il = BlockType.Normal := rfl

theorem fence_not_prefix {p : Str} (h : ∀ c ∈ p, ¬c = bq) :
    (("```".toList).isPrefixOf p) = false := by
  by_contra hcontra
  simp only [Bool.not_eq_false, List.isPrefixOf_iff_prefix] at hcontra
  exact h bq (hcontra.subset (by decide)) rfl

theorem processLine_blank (CL : List Str) (i : Nat) (st : NormState) :
    processLine CL i [] st = some st := rfl

theorem joinWith_cons2 (sep x y : Str) (ys : List Str) :
    joinWith sep (x :: y :: ys) = x ++ sep ++ joinWith sep (y :: ys) := rfl

theorem joinWith_append_ne (sep : Str) : ∀ (xs ys : List Str), xs ≠ [] → ys ≠ [] →
    joinWith sep (xs ++ ys) = joinWith sep xs ++ sep ++ joinWith sep ys := by
  intro xs
  induction xs with
  | nil =>
    intro ys hx _
    exact absurd rfl hx
  | cons x xs' ih =>
    intro ys _ hy
    cases xs' with
    | nil =>
      cases ys with
      | nil => exact absurd rfl hy
      | cons y ys' => rfl
    | cons x2 xs'' =>
      have ih' := ih ys (List.cons_ne_nil _ _) hy
      calc joinWith sep ((x :: x2 :: xs'') ++ ys)
          = x ++ sep ++ joinWith sep ((x2 :: xs'') ++ ys) := rfl
        _ = x ++ sep ++ (joinWith sep (x2 :: xs'') ++ sep ++ joinWith sep ys) := by
            rw [ih']
        _ = joinWith sep (x :: x2 :: xs'') ++ sep ++ joinWith sep ys := by
            rw [joinWith_cons2]
            simp [List.append_assoc]

theorem joinWith_ne_nil (sep x : Str) (xs : List Str) (hx : x ≠ []) :
    joinWith sep (x :: xs) ≠ [] := by
  cases xs with
  | nil => exact hx
  | cons y ys =>
    rw [joinWith_cons2]
    simp [hx]

theorem trimStart_cons_not_ws {c : Char} (t : Str) (hc : rustIsWhitespace c = false) :
    rustTrimStart (c :: t) = c :: t := by
  simp [rustTrimStart, List.dropWhile_cons, hc]

theorem head_not_ws_of_trimStart_fixed {c : Char} {t : Str}
    (h : rustTrimStart (c :: t) = c :: t) : rustIsWhitespace c = false := by
  by_contra hcontra
  rw [Bool.not_eq_false] at hcontra
  have heq : rustTrimStart (c :: t) = t.dropWhile rustIsWhitespace := by
    simp [rustTrimStart, List.dropWhile_cons, hcontra]
  rw [heq] at h
  have hlen := congrArg List.length h
  have hle : (t.dropWhile rustIsWhitespace).length ≤ t.length :=
    (List.dropWhile_sublist rustIsWhitespace).length_le
  simp at hlen
  omega

theorem last_not_ws_of_trimEnd_fixed {s : Str} {c : Char}
    (h : rustTrimEnd s = s) (hlast : s.getLast? = some c) :
    rustIsWhitespace c = false := by
  by_contra hcontra
  rw [Bool.not_eq_false] at hcontra
  have hrev : s.reverse.head? = some c := by rw [List.head?_reverse, hlast]
  cases hrv : s.reverse with
  | nil =>
    rw [hrv] at hrev
    simp at hrev
  | cons c' t =>
    rw [hrv] at hrev
    simp only [List.head?_cons, Option.some_inj] at hrev
    subst hrev
    unfold rustTrimEnd at h
    rw [hrv, List.dropWhile_cons, if_pos (by simp [hcontra])] at h
    have hlen := congrArg List.length h
    have hle : (t.dropWhile rustIsWhitespace).length ≤ t.length :=
      (List.dropWhile_sublist rustIsWhitespace).length_le
    have hsl : s.length = t.length + 1 := by
      have hr := congrArg List.length hrv
      simp at hr
      omega
    simp at hlen
    omega

theorem trimEnd_fixed_of_last_not_ws {s : Str} {c : Char}
    (hlast : s.getLast? = some c) (hc : rustIsWhitespace c = false) :
    rustTrimEnd s = s := by
  have hrev : s.reverse.head? = some c := by rw [List.head?_reverse, hlast]
  cases hrv : s.reverse with
  | nil =>
    rw [hrv] at hrev
    simp at hrev
  | cons c' t =>
    rw [hrv] at hrev
    simp only [List.head?_cons, Option.some_inj] at hrev
    subst hrev
    unfold rustTrimEnd
    rw [hrv, List.dropWhile_cons, if_neg (by simp [hc])]
    rw [← hrv, List.reverse_reverse]

theorem goodLine_unpack {l : Str} (h : goodLine l = true) :
    l ≠ [] ∧ rustTrimEnd l = l ∧ (∀ c ∈ l, ¬c = '\n' ∧ ¬c = '\r') ∧
    (("```".toList).isPrefixOf (rustTrimStart l)) = false ∧
    split_header_content l = some [rustTrimStart l] := by
  unfold goodLine at h
  simp only [Bool.and_eq_true, beq_iff_eq, Bool.not_eq_true', List.all_eq_true] at h
  obtain ⟨⟨⟨⟨h1, h2⟩, h3⟩, h4⟩, h5⟩ := h
  have h5' : split_header_content l = some [rustTrimStart l] := by
    rw [h5]
    unfold rustTrim
    rw [h2]
  refine ⟨?_, h2, ?_, h4, h5'⟩
  · intro hnil
    rw [hnil] at h1
    simp at h1
  · intro c hc
    have hcc := h3 c hc
    simp only [Bool.and_eq_true, Bool.not_eq_true', beq_eq_false_iff_ne, ne_eq] at hcc
    exact hcc

theorem rustTrimStart_idem (l : Str) :
    rustTrimStart (rustTrimStart l) = rustTrimStart l := by
  induction l with
  | nil => rfl
  | cons c t ih =>
    by_cases h : rustIsWhitespace c
    · have h1 : rustTrimStart (c :: t) = rustTrimStart t := by
        simp [rustTrimStart, List.dropWhile_cons, h]
      rw [h1, ih]
    · have h1 : rustTrimStart (c :: t) = c :: t :=
        trimStart_cons_not_ws t (by simpa using h)
      rw [h1, h1]

theorem trimStart_ne_nil {l : Str} (hne : l ≠ []) (hte : rustTrimEnd l = l) :
    rustTrimStart l ≠ [] := by
  have hlast : l.getLast? = some (l.getLast hne) := List.getLast?_eq_getLast l hne
  have hc : rustIsWhitespace (l.getLast hne) = false :=
    last_not_ws_of_trimEnd_fixed hte hlast
  intro h0
  have hall : ∀ x ∈ l, rustIsWhitespace x = true := by
    rw [rustTrimStart, List.dropWhile_eq_nil_iff] at h0
    exact h0
  have := hall (l.getLast hne) (List.getLast_mem hne)
  rw [hc] at this
  exact absurd this (by simp)

theorem normalize_list_item_ts (l : Str) (d : Nat) :
    normalize_list_item (rustTrimStart l) d = normalize_list_item l d := by
  simp only [normalize_list_item, indent_line, rustTrimStart_idem]

theorem isListItemB_gbt_ts (l : Str) (b il b' il' : Bool) :
    isListItemB (get_block_type (rustTrimStart l) b il) =
    isListItemB (get_block_type l b' il') := by
  simp only [get_block_type, rustTrimStart_idem]
  split_ifs with h1 h2 h3 h4 h5 <;> simp [isListItemB]

theorem get_block_type_il (l : Str) (b il il' : Bool) :
    get_block_type l b il = get_block_type l b il' := rfl

theorem get_block_type_eq_listitem {l : Str} {b il : Bool} {d : Nat} {m : ListMarker}
    (h : get_block_type l b il = BlockType.ListItem d m) :
    get_list_marker (rustTrimStart l) ≠ ListMarker.None := by
  intro hm
  simp only [get_block_type] at h
  split_ifs at h <;> simp_all

theorem is_list_continuation_false_of_marker {l : Str}
    (h : get_list_marker (rustTrimStart l) ≠ ListMarker.None) (prev : BlockType) :
    is_list_continuation l prev = false := by
  cases prev <;> simp [is_list_continuation, h]

theorem normalizedLineFor_listitem (prev : BlockType) (d : Nat) (m : ListMarker)
    (s : Str) :
    normalizedLineFor (BlockType.ListItem d m) prev s =
      normalize_list_item s (actualDepth prev d m) := by
  cases prev with
  | ListItem pd pm => cases pm <;> cases m <;> rfl
  | Header => rfl
  | CodeBlockStart => rfl
  | CodeBlockEnd => rfl
  | Normal => rfl

theorem normalizedLineFor_normal_noncont {prev : BlockType} {s : Str}
    (h : is_list_continuation s prev = false) :
    normalizedLineFor BlockType.Normal prev s = s := by
  cases prev <;> simp [normalizedLineFor, h]

theorem nsb_listitem (d : Nat) (m : ListMarker) (prev : BlockType) :
    needs_spacing_before (BlockType.ListItem d m) prev = !isListItemB prev := by
  cases prev <;> rfl

theorem nsa_listitem (d : Nat) (m : ListMarker) (nt : BlockType) :
    needs_spacing_after (BlockType.ListItem d m) nt = !isListItemB nt := by
  cases nt <;> rfl

theorem processSubLine_listitem (CL : List Str) (i : Nat) {l lout : Str}
    {prev nt : BlockType} {d : Nat} {m : ListMarker} (res curB : List Str)
    (hne : ¬l = [])
    (hfence : (("```".toList).isPrefixOf l) = false)
    (hcont : is_list_continuation l prev = false)
    (ht : get_block_type l false (isListItemB prev) = BlockType.ListItem d m)
    (hfit : normalize_list_item l (actualDepth prev d m) = lout)
    (hcb : curB = [] ∨ isListItemB prev = true)
    (hnt : (if i < CL.length - 1 then
        get_block_type ((CL[i + 1]?).getD []) false true else BlockType.Normal) = nt) :
    processSubLine CL i 1 0 l ⟨res, curB, false, prev, isListItemB prev⟩ =
      (if isListItemB nt then
        (⟨res, curB ++ [lout], false, BlockType.ListItem d m, true⟩ : NormState)
       else ⟨flushNl res (curB ++ [lout]), [], false, BlockType.ListItem d m, true⟩) := by
  have hemit : normalizedLineFor (BlockType.ListItem d m) prev l =
      normalize_list_item l (actualDepth prev d m) := normalizedLineFor_listitem prev d m l
  cases hp : isListItemB prev with
  | false =>
    rcases hcb with hcb | hcb
    · subst hcb
      rw [hp] at ht
      simp only [processSubLine, if_neg hne, hfence, Bool.false_eq_true, if_false,
        hcont, Bool.and_false, hp, ht]
      simp [flushNl, nsb_listitem, nsa_listitem, hnt, hp, hemit, hfit,
        normalizedLineFor_listitem]
      cases hq : isListItemB nt <;> simp [hq, flushNl, hfit]
    · rw [hcb] at hp
      simp at hp
  | true =>
    rw [hp] at ht
    simp only [processSubLine, if_neg hne, hfence, Bool.false_eq_true, if_false,
      hcont, Bool.and_false, hp, ht]
    simp [flushNl, nsb_listitem, nsa_listitem, hnt, hp, hemit, hfit,
      normalizedLineFor_listitem]
    cases hq : isListItemB nt <;> simp [hq, flushNl, hfit]

theorem joinWith_singleton (sep x : Str) : joinWith sep [x] = x := rfl

theorem actualDepth_self (d : Nat) (m : ListMarker) :
    actualDepth (BlockType.ListItem d m) d m = d := by
  cases m <;> rfl

theorem processSubLine_normal_line (CL : List Str) (i : Nat) {l : Str}
    {prev : BlockType} (res : List Str)
    (hne : ¬l = [])
    (hfence : (("```".toList).isPrefixOf l) = false)
    (hcont : is_list_continuation l prev = false)
    (ht : get_block_type l false (isListItemB prev) = BlockType.Normal)
    (hnt : (if i < CL.length - 1 then
        get_block_type ((CL[i + 1]?).getD []) false false else BlockType.Normal) =
        BlockType.Normal) :
    processSubLine CL i 1 0 l ⟨res, [], false, prev, isListItemB prev⟩ =
      ⟨res ++ [l], [], false, BlockType.Normal, false⟩ := by
  have hemit := normalizedLineFor_normal_noncont hcont
  cases hp : isListItemB prev with
  | false =>
    rw [hp] at ht
    simp only [processSubLine, if_neg hne, hfence, Bool.false_eq_true, if_false,
      hcont, Bool.and_false, hp, ht]
    simp [flushNl, hnt, hemit, needs_spacing_before, needs_spacing_after, isListItemB,
      joinWith_singleton]
  | true =>
    rw [hp] at ht
    simp only [processSubLine, if_neg hne, hfence, Bool.false_eq_true, if_false,
      hcont, Bool.and_false, hp, ht]
    simp [flushNl, hnt, hemit, needs_spacing_before, needs_spacing_after, isListItemB,
      joinWith_singleton]

theorem processSubLine_cont_line (CL : List Str) (i : Nat) {l lout : Str}
    {d : Nat} {m : ListMarker} (res : List Str)
    (hne : ¬l = [])
    (hfence : (("```".toList).isPrefixOf l) = false)
    (hcont : is_list_continuation l (BlockType.ListItem d m) = true)
    (hfit : normalize_list_item l d = lout)
    (hnt : (if i < CL.length - 1 then
        get_block_type ((CL[i + 1]?).getD []) false true else BlockType.Normal) =
        BlockType.Normal) :
    processSubLine CL i 1 0 l ⟨res, [], false, BlockType.ListItem d m, true⟩ =
      ⟨res ++ [lout], [], false, BlockType.ListItem d m, true⟩ := by
  have hemit : normalizedLineFor (BlockType.ListItem d m) (BlockType.ListItem d m) l =
      normalize_list_item l d := by
    rw [normalizedLineFor_listitem, actualDepth_self]
  simp only [processSubLine, if_neg hne, hfence, Bool.false_eq_true, if_false, hcont]
  simp [flushNl, hnt, hemit, hfit, needs_spacing_before, needs_spacing_after,
    isListItemB, hne, joinWith_singleton]

theorem processSubLine_header_line (CL : List Str) (i : Nat) {l : Str}
    {prev : BlockType} (res : List Str)
    (hne : ¬l = [])
    (hfence : (("```".toList).isPrefixOf l) = false)
    (hcont : is_list_continuation l prev = false)
    (ht : get_block_type l false (isListItemB prev) = BlockType.Header)
    (hnt : (if i < CL.length - 1 then
        get_block_type ((CL[i + 1]?).getD []) false false else BlockType.Normal) =
        BlockType.Normal) :
    processSubLine CL i 1 0 l ⟨res, [], false, prev, isListItemB prev⟩ =
      ⟨res ++ [l], [], false, BlockType.Header, false⟩ := by
  cases hp : isListItemB prev with
  | false =>
    rw [hp] at ht
    simp only [processSubLine, if_neg hne, hfence, Bool.false_eq_true, if_false,
      hcont, Bool.and_false, hp, ht]
    simp [flushNl, hnt, normalizedLineFor, needs_spacing_before, needs_spacing_after,
      isListItemB, joinWith_singleton]
  | true =>
    rw [hp] at ht
    simp only [processSubLine, if_neg hne, hfence, Bool.false_eq_true, if_false,
      hcont, Bool.and_false, hp, ht]
    simp [flushNl, hnt, normalizedLineFor, needs_spacing_before, needs_spacing_after,
      isListItemB, joinWith_singleton]

theorem optionBind_some {α β : Type} (a : α) (f : α → Option β) :
    (some a >>= f) = f a := rfl

theorem drop_succ_of_drop_eq {α : Type} {CL : List α} {n : Nat} {x : α} {xs : List α}
    (h : CL.drop n = x :: xs) : CL.drop (n + 1) = xs := by
  have h1 : (CL.drop n).drop 1 = CL.drop (n + 1) := List.drop_drop 1 n CL
  rw [h] at h1
  exact h1.symm ▸ rfl

theorem length_ge_of_drop_cons {α : Type} {CL : List α} {n : Nat} {x : α}
    {xs : List α} (h : CL.drop n = x :: xs) :
    CL.length = n + 1 + xs.length ∧ n < CL.length := by
  have hlen := congrArg List.length h
  simp only [List.length_drop, List.length_cons] at hlen
  constructor
  · omega
  · omega

theorem peek_of_drop_cons_cons (CL : List Str) {n : Nat} {l l' : Str} {t : List Str}
    (h : CL.drop n = l :: l' :: t) (il : Bool) :
    (if n < CL.length - 1 then get_block_type ((CL[n + 1]?).getD []) false il
     else BlockType.Normal) = get_block_type l' false il := by
  obtain ⟨hlen, _⟩ := length_ge_of_drop_cons h
  have hn : n < CL.length - 1 := by simp at hlen; omega
  have hdrop1 : CL.drop (n + 1) = l' :: t := drop_succ_of_drop_eq h
  have hget : CL[n + 1]? = some l' := by
    rw [← List.head?_drop, hdrop1]
    rfl
  rw [if_pos hn, hget]
  rfl

theorem peek_of_drop_singleton (CL : List Str) {n : Nat} {l : Str}
    (h : CL.drop n = [l]) (il : Bool) :
    (if n < CL.length - 1 then get_block_type ((CL[n + 1]?).getD []) false il
     else BlockType.Normal) = BlockType.Normal := by
  obtain ⟨hlen, _⟩ := length_ge_of_drop_cons h
  have hn : ¬n < CL.length - 1 := by simp at hlen; omega
  rw [if_neg hn]

theorem listTail_cons_inv {prev : BlockType} {l : Str} {rest : List Str}
    {out : BlockType} (h : listTail prev (l :: rest) = some out) :
    ∃ d m, get_block_type (rustTrimStart l) false false = BlockType.ListItem d m ∧
      normalize_list_item l (actualDepth prev d m) = l ∧
      listTail (BlockType.ListItem d m) rest = some out := by
  simp only [listTail] at h
  cases hgt : get_block_type (rustTrimStart l) false false with
  | ListItem d m =>
    rw [hgt] at h
    have h' : (if (normalize_list_item l (actualDepth prev d m) == l) = true then
        listTail (BlockType.ListItem d m) rest else none) = some out := h
    by_cases hfit : normalize_list_item l (actualDepth prev d m) = l
    · rw [if_pos (by simp [hfit])] at h'
      exact ⟨d, m, rfl, hfit, h'⟩
    · rw [if_neg (by simp [hfit])] at h'
      simp at h'
  | Header =>
    rw [hgt] at h
    have h' : (none : Option BlockType) = some out := h
    simp at h'
  | CodeBlockStart =>
    rw [hgt] at h
    have h' : (none : Option BlockType) = some out := h
    simp at h'
  | CodeBlockEnd =>
    rw [hgt] at h
    have h' : (none : Option BlockType) = some out := h
    simp at h'
  | Normal =>
    rw [hgt] at h
    have h' : (none : Option BlockType) = some out := h
    simp at h'

theorem listTail_out_isLI : ∀ {ls : List Str} {prev out : BlockType},
    ls ≠ [] → listTail prev ls = some out → isListItemB out = true := by
  intro ls
  induction ls with
  | nil => intro prev out h _; exact absurd rfl h
  | cons l rest ih =>
    intro prev out _ h
    obtain ⟨d, m, _, _, hrest⟩ := listTail_cons_inv h
    cases rest with
    | nil =>
      simp only [listTail] at hrest
      rw [← Option.some_inj.mp hrest]
      rfl
    | cons r rs => exact ih (List.cons_ne_nil _ _) hrest

theorem processLine_one (CL : List Str) (i : Nat) {l s : Str} (st : NormState)
    (hte : rustTrimEnd l = l) (hsplit : split_header_content l = some [s]) :
    processLine CL i l st = some (processSubLine CL i 1 0 s st) := by
  unfold processLine
  rw [hte, hsplit]
  rfl

theorem foldList (CL : List Str) :
    ∀ (ls : List Str) (n : Nat) (prev prevOut : BlockType)
      (res curB tail : List Str),
      ls ≠ [] →
      listTail prev ls = some prevOut →
      (∀ l ∈ ls, goodLine l = true) →
      CL.drop n = ls ++ tail →
      (tail = [] ∨ tail.head? = some []) →
      (curB = [] ∨ isListItemB prev = true) →
      List.foldlM (fun st il => processLine CL il.1 il.2 st)
        (⟨res, curB, false, prev, isListItemB prev⟩ : NormState)
        (List.enumFrom n ls) =
      some ⟨res ++ [joinWith ("\n".toList) (curB ++ ls)], [], false, prevOut,
        isListItemB prevOut⟩ := by
  intro ls
  induction ls with
  | nil => intro n prev prevOut res curB tail h; exact absurd rfl h
  | cons l rest ih =>
    intro n prev prevOut res curB tail _ hlt hgood halign htail hcb
    obtain ⟨d, m, hgt, hfit0, hrest⟩ := listTail_cons_inv hlt
    obtain ⟨hlne, hlte, _, hlfence, hlsplit⟩ :=
      goodLine_unpack (hgood l (List.mem_cons_self _ _))
    have hsne : rustTrimStart l ≠ [] := trimStart_ne_nil hlne hlte
    have hfit : normalize_list_item (rustTrimStart l) (actualDepth prev d m) = l := by
      rw [normalize_list_item_ts]
      exact hfit0
    have hcont := is_list_continuation_false_of_marker
      (get_block_type_eq_listitem hgt) prev
    have ht : get_block_type (rustTrimStart l) false (isListItemB prev) =
        BlockType.ListItem d m := by
      rw [get_block_type_il (rustTrimStart l) false (isListItemB prev) false]
      exact hgt
    rw [List.enumFrom_cons, List.foldlM_cons,
      processLine_one CL n _ hlte hlsplit, optionBind_some]
    cases rest with
    | nil =>
      have hnt : (if n < CL.length - 1 then
          get_block_type ((CL[n + 1]?).getD []) false true else BlockType.Normal) =
          BlockType.Normal := by
        rcases htail with htail | htail
        · subst htail
          rw [List.append_nil] at halign
          exact peek_of_drop_singleton CL halign true
        · cases tail with
          | nil => simp at htail
          | cons t ts =>
            simp at htail
            subst htail
            rw [peek_of_drop_cons_cons CL halign true]
            rfl
      rw [processSubLine_listitem CL n res curB hsne hlfence hcont ht hfit hcb hnt]
      simp only [listTail] at hrest
      have hout : BlockType.ListItem d m = prevOut := Option.some_inj.mp hrest
      subst hout
      simp [isListItemB, flushNl]
    | cons l2 rest2 =>
      obtain ⟨d2, m2, hgt2, _, _⟩ := listTail_cons_inv hrest
      have halign2 : CL.drop n = l :: (l2 :: (rest2 ++ tail)) := by
        simpa using halign
      have hnt : (if n < CL.length - 1 then
          get_block_type ((CL[n + 1]?).getD []) false true else BlockType.Normal) =
          get_block_type l2 false true :=
        peek_of_drop_cons_cons CL halign2 true
      have hbr : isListItemB (get_block_type l2 false true) = true := by
        rw [← isListItemB_gbt_ts l2 false false false true, hgt2]
        rfl
      rw [processSubLine_listitem CL n res curB hsne hlfence hcont ht hfit hcb hnt]
      rw [if_pos hbr]
      have halignr : CL.drop (n + 1) = (l2 :: rest2) ++ tail :=
        drop_succ_of_drop_eq halign2
      have ihr := ih (n + 1) (BlockType.ListItem d m) prevOut res (curB ++ [l]) tail
        (List.cons_ne_nil _ _) hrest
        (fun x hx => hgood x (List.mem_cons_of_mem _ hx)) halignr htail
        (Or.inr rfl)
      simp only [isListItemB] at ihr
      rw [ihr]
      simp [List.append_assoc, isListItemB]

theorem foldOneBlock (CL : List Str) (b tail : List Str) (n : Nat)
    (prev prevOut : BlockType) (res : List Str)
    (hout : blockOut prev b = some prevOut)
    (hgood : ∀ l ∈ b, goodLine l = true)
    (halign : CL.drop n = b ++ tail)
    (htail : tail = [] ∨ tail.head? = some []) :
    List.foldlM (fun st il => processLine CL il.1 il.2 st)
      (⟨res, [], false, prev, isListItemB prev⟩ : NormState)
      (List.enumFrom n b) =
    some ⟨res ++ [joinWith ("\n".toList) b], [], false, prevOut,
      isListItemB prevOut⟩ := by
  match b with
  | [] => simp [blockOut] at hout
  | [l] =>
    obtain ⟨hlne, hlte, _, hlfence, hlsplit⟩ :=
      goodLine_unpack (hgood l (List.mem_cons_self _ _))
    have hsne : rustTrimStart l ≠ [] := trimStart_ne_nil hlne hlte
    rw [List.enumFrom_cons, List.foldlM_cons,
      processLine_one CL n _ hlte hlsplit, optionBind_some]
    have hsingle : CL.drop n = l :: tail := by simpa using halign
    have hntF : (if n < CL.length - 1 then
        get_block_type ((CL[n + 1]?).getD []) false false else BlockType.Normal) =
        BlockType.Normal := by
      rcases htail with ht | ht
      · subst ht
        exact peek_of_drop_singleton CL (by simpa using hsingle) false
      · cases tail with
        | nil => simp at ht
        | cons t ts =>
          simp at ht
          subst ht
          rw [peek_of_drop_cons_cons CL hsingle false]
          rfl
    have hntT : (if n < CL.length - 1 then
        get_block_type ((CL[n + 1]?).getD []) false true else BlockType.Normal) =
        BlockType.Normal := by
      rcases htail with ht | ht
      · subst ht
        exact peek_of_drop_singleton CL (by simpa using hsingle) true
      · cases tail with
        | nil => simp at ht
        | cons t ts =>
          simp at ht
          subst ht
          rw [peek_of_drop_cons_cons CL hsingle true]
          rfl
    by_cases hcont : is_list_continuation (rustTrimStart l) prev = true
    · cases prev with
      | ListItem d m =>
        have hout2 : (if normalize_list_item l d == l then
            some (BlockType.ListItem d m) else none) = some prevOut := by
          simpa [blockOut, hcont] using hout
        by_cases hfit0 : normalize_list_item l d = l
        · have hpo : BlockType.ListItem d m = prevOut := by
            simpa [hfit0] using hout2
          subst hpo
          have hfit : normalize_list_item (rustTrimStart l) d = l := by
            rw [normalize_list_item_ts]
            exact hfit0
          simp only [isListItemB]
          rw [processSubLine_cont_line CL n res hsne hlfence hcont hfit hntT]
          simp [isListItemB, joinWith_singleton, List.foldlM_nil]
        · simp [hfit0] at hout2
      | Normal => simp [is_list_continuation] at hcont
      | Header => simp [is_list_continuation] at hcont
      | CodeBlockStart => simp [is_list_continuation] at hcont
      | CodeBlockEnd => simp [is_list_continuation] at hcont
    · have hcont2 : is_list_continuation (rustTrimStart l) prev = false := by
        simpa using hcont
      cases hgt : get_block_type (rustTrimStart l) false false with
      | Normal =>
        have h0 : blockOut prev [l] = (if rustTrimStart l == l then
            some BlockType.Normal else none) := by
          simp [blockOut, hcont2, hgt]
        rw [h0] at hout
        by_cases hts : rustTrimStart l = l
        · have hpo : BlockType.Normal = prevOut := by
            simpa [hts] using hout
          subst hpo
          rw [hts] at hgt hlfence hcont2 ⊢
          have ht : get_block_type l false (isListItemB prev) = BlockType.Normal := by
            rw [get_block_type_il l false (isListItemB prev) false]
            exact hgt
          rw [processSubLine_normal_line CL n res hlne hlfence hcont2 ht hntF]
          simp [isListItemB, joinWith_singleton, List.foldlM_nil]
        · simp [hts] at hout
      | Header =>
        have h0 : blockOut prev [l] = (if rustTrimStart l == l then
            some BlockType.Header else none) := by
          simp [blockOut, hcont2, hgt]
        rw [h0] at hout
        by_cases hts : rustTrimStart l = l
        · have hpo : BlockType.Header = prevOut := by
            simpa [hts] using hout
          subst hpo
          rw [hts] at hgt hlfence hcont2 ⊢
          have ht : get_block_type l false (isListItemB prev) = BlockType.Header := by
            rw [get_block_type_il l false (isListItemB prev) false]
            exact hgt
          rw [processSubLine_header_line CL n res hlne hlfence hcont2 ht hntF]
          simp [isListItemB, joinWith_singleton, List.foldlM_nil]
        · simp [hts] at hout
      | ListItem d m =>
        have hout2 : (if normalize_list_item l (actualDepth prev d m) == l then
            some (BlockType.ListItem d m) else none) = some prevOut := by
          simpa [blockOut, hcont2, hgt] using hout
        by_cases hfit0 : normalize_list_item l (actualDepth prev d m) = l
        · have hpo : BlockType.ListItem d m = prevOut := by
            simpa [hfit0] using hout2
          subst hpo
          have hfit : normalize_list_item (rustTrimStart l)
              (actualDepth prev d m) = l := by
            rw [normalize_list_item_ts]
            exact hfit0
          have ht : get_block_type (rustTrimStart l) false (isListItemB prev) =
              BlockType.ListItem d m := by
            rw [get_block_type_il (rustTrimStart l) false (isListItemB prev) false]
            exact hgt
          rw [processSubLine_listitem CL n res [] hsne hlfence hcont2 ht hfit
            (Or.inl rfl) hntT]
          simp [isListItemB, flushNl, joinWith_singleton, List.foldlM_nil]
        · simp [hfit0] at hout2
      | CodeBlockStart =>
        have h0 : blockOut prev [l] = none := by
          simp [blockOut, hcont2, hgt]
        rw [h0] at hout
        exact absurd hout (by simp)
      | CodeBlockEnd =>
        have h0 : blockOut prev [l] = none := by
          simp [blockOut, hcont2, hgt]
        rw [h0] at hout
        exact absurd hout (by simp)
  | l :: l2 :: rest =>
    have hlt : listTail prev (l :: l2 :: rest) = some prevOut := hout
    have h := foldList CL (l :: l2 :: rest) n prev prevOut res [] tail
      (List.cons_ne_nil _ _) hlt hgood halign htail (Or.inl rfl)
    simpa using h

theorem drop_add_of_drop_append {α : Type} {CL xs ys : List α} {n : Nat}
    (h : CL.drop n = xs ++ ys) : CL.drop (n + xs.length) = ys := by
  have h1 : (CL.drop n).drop xs.length = CL.drop (n + xs.length) :=
    List.drop_drop xs.length n CL
  rw [h, List.drop_left] at h1
  exact h1.symm

theorem foldBlocks (CL : List Str) :
    ∀ (bs : List (List Str)) (n : Nat) (prev prevOut : BlockType) (res : List Str),
      (∀ b ∈ bs, ∀ l ∈ b, goodLine l = true) →
      blocksOut prev bs = some prevOut →
      CL.drop n = linesOf bs →
      List.foldlM (fun st il => processLine CL il.1 il.2 st)
        (⟨res, [], false, prev, isListItemB prev⟩ : NormState)
        (List.enumFrom n (linesOf bs)) =
      some ⟨res ++ bs.map (joinWith ("\n".toList)), [], false, prevOut,
        isListItemB prevOut⟩ := by
  intro bs
  induction bs with
  | nil =>
    intro n prev prevOut res _ hbo _
    have hpo : prev = prevOut := Option.some_inj.mp hbo
    subst hpo
    simp [linesOf, List.enumFrom, List.foldlM]
  | cons b bs ih =>
    intro n prev prevOut res hgood hbo halign
    cases hb : blockOut prev b with
    | none =>
      have h' : (match blockOut prev b with
        | some p => blocksOut p bs
        | none => none) = some prevOut := hbo
      rw [hb] at h'
      exact absurd h' (by simp)
    | some mid =>
      have hbo' : blocksOut mid bs = some prevOut := by
        have h' : (match blockOut prev b with
          | some p => blocksOut p bs
          | none => none) = some prevOut := hbo
        rw [hb] at h'
        exact h'
      have hgoodb : ∀ l ∈ b, goodLine l = true :=
        hgood b (List.mem_cons_self _ _)
      cases bs with
      | nil =>
        have hpo : mid = prevOut := Option.some_inj.mp hbo'
        subst hpo
        have hlin : linesOf [b] = b := by cases b <;> rfl
        rw [hlin] at halign ⊢
        have h := foldOneBlock CL b [] n prev mid res hb hgoodb
          (by simpa using halign) (Or.inl rfl)
        rw [h]
        simp
      | cons b2 rest =>
        have hlin : linesOf (b :: b2 :: rest) = b ++ [] :: linesOf (b2 :: rest) := rfl
        rw [hlin] at halign ⊢
        rw [List.enumFrom_append, List.foldlM_append]
        have h1 := foldOneBlock CL b ([] :: linesOf (b2 :: rest)) n prev mid res
          hb hgoodb halign (Or.inr rfl)
        rw [h1, optionBind_some]
        rw [List.enumFrom_cons, List.foldlM_cons, processLine_blank, optionBind_some]
        have halign2 : CL.drop (n + b.length) = [] :: linesOf (b2 :: rest) :=
          drop_add_of_drop_append halign
        have halign3 : CL.drop (n + b.length + 1) = linesOf (b2 :: rest) :=
          drop_succ_of_drop_eq halign2
        have h2 := ih (n + b.length + 1) mid prevOut
          (res ++ [joinWith ("\n".toList) b])
          (fun x hx => hgood x (List.mem_cons_of_mem _ hx)) hbo' halign3
        rw [h2]
        simp [List.append_assoc]

theorem linesOf_ne_nil {b : List Str} (bs' : List (List Str)) (hb : b ≠ []) :
    linesOf (b :: bs') ≠ [] := by
  cases bs' with
  | nil => exact hb
  | cons b2 rest =>
    show b ++ [] :: linesOf (b2 :: rest) ≠ []
    simp

theorem mem_linesOf : ∀ (bs : List (List Str)) (l : Str), l ∈ linesOf bs →
    l = [] ∨ ∃ b, b ∈ bs ∧ l ∈ b := by
  intro bs
  induction bs with
  | nil =>
    intro l hl
    simp [linesOf] at hl
  | cons b bs ih =>
    intro l hl
    cases bs with
    | nil =>
      exact Or.inr ⟨b, List.mem_cons_self _ _, hl⟩
    | cons b2 rest =>
      have hl' : l ∈ b ++ [] :: linesOf (b2 :: rest) := hl
      rw [List.mem_append] at hl'
      rcases hl' with hl' | hl'
      · exact Or.inr ⟨b, List.mem_cons_self _ _, hl'⟩
      · rcases List.mem_cons.mp hl' with hl'' | hl''
        · exact Or.inl hl''
        · rcases ih l hl'' with h0 | ⟨b', hb', hmem⟩
          · exact Or.inl h0
          · exact Or.inr ⟨b', List.mem_cons_of_mem _ hb', hmem⟩

theorem linesOf_no_nl_cr {bs : List (List Str)}
    (hgood : ∀ b ∈ bs, ∀ l ∈ b, goodLine l = true) :
    ∀ l ∈ linesOf bs, ∀ c ∈ l, ¬c = '\n' ∧ ¬c = '\r' := by
  intro l hl c hc
  rcases mem_linesOf bs l hl with h0 | ⟨b, hb, hmem⟩
  · subst h0
    simp at hc
  · obtain ⟨_, _, hnl, _, _⟩ := goodLine_unpack (hgood b hb l hmem)
    exact hnl c hc

theorem normText_eq_joinNl : ∀ (bs : List (List Str)), (∀ b ∈ bs, b ≠ []) →
    normalizedText bs = joinWith ("\n".toList) (linesOf bs) := by
  intro bs
  induction bs with
  | nil => intro _; rfl
  | cons b bs ih =>
    intro hne
    cases bs with
    | nil => rfl
    | cons b2 rest =>
      have hb : b ≠ [] := hne b (List.mem_cons_self _ _)
      have hb2 : b2 ≠ [] := hne b2 (List.mem_cons_of_mem _ (List.mem_cons_self _ _))
      have hlin : linesOf (b :: b2 :: rest) = b ++ [] :: linesOf (b2 :: rest) := rfl
      have hLne : linesOf (b2 :: rest) ≠ [] := linesOf_ne_nil rest hb2
      have ih' := ih (fun x hx => hne x (List.mem_cons_of_mem _ hx))
      have hLHS : normalizedText (b :: b2 :: rest) =
          joinWith ("\n\n".toList) (joinWith ("\n".toList) b ::
            (b2 :: rest).map (joinWith ("\n".toList))) := rfl
      rw [hLHS, hlin]
      have hmap : (b2 :: rest).map (joinWith ("\n".toList)) =
          joinWith ("\n".toList) b2 :: rest.map (joinWith ("\n".toList)) := rfl
      rw [hmap, joinWith_cons2]
      have hnt : joinWith ("\n\n".toList)
          (joinWith ("\n".toList) b2 :: rest.map (joinWith ("\n".toList))) =
          normalizedText (b2 :: rest) := rfl
      rw [hnt, ih']
      rw [joinWith_append_ne ("\n".toList) b ([] :: linesOf (b2 :: rest)) hb (by simp)]
      cases hL : linesOf (b2 :: rest) with
      | nil => exact absurd hL hLne
      | cons y ys =>
        rw [joinWith_cons2]
        have hnn : ("\n\n".toList : Str) = '\n' :: '\n' :: [] := rfl
        have hn : ("\n".toList : Str) = ['\n'] := rfl
        rw [hnn, hn]
        simp [List.append_assoc]

theorem splitOnNl_joinNl : ∀ (L : List Str), L ≠ [] →
    (∀ l ∈ L, ∀ c ∈ l, ¬c = '\n') →
    splitOnNl (joinWith ("\n".toList) L) = L := by
  intro L
  induction L with
  | nil => intro h; exact absurd rfl h
  | cons l L' ih =>
    intro _ hnl
    cases L' with
    | nil =>
      show splitOnNl l = [l]
      exact splitOnNl_no_nl (hnl l (List.mem_cons_self _ _))
    | cons l2 rest =>
      rw [joinWith_cons2]
      have hshape : l ++ "\n".toList ++ joinWith ("\n".toList) (l2 :: rest) =
          l ++ '\n' :: joinWith ("\n".toList) (l2 :: rest) := by
        simp
      rw [hshape, splitOnNl_append _ (hnl l (List.mem_cons_self _ _))]
      rw [ih (List.cons_ne_nil _ _) (fun x hx => hnl x (List.mem_cons_of_mem _ hx))]

theorem linesOf_getLast : ∀ (bs : List (List Str)), bs ≠ [] →
    (∀ b ∈ bs, b ≠ []) →
    ∃ lst, (linesOf bs).getLast? = some lst ∧ ∃ b, b ∈ bs ∧ lst ∈ b := by
  intro bs
  induction bs with
  | nil => intro h; exact absurd rfl h
  | cons b bs ih =>
    intro _ hne
    cases bs with
    | nil =>
      have hb : b ≠ [] := hne b (List.mem_cons_self _ _)
      refine ⟨b.getLast hb, ?_, b, List.mem_cons_self _ _, List.getLast_mem hb⟩
      exact List.getLast?_eq_getLast b hb
    | cons b2 rest =>
      obtain ⟨lst, hl, b', hb', hmem⟩ := ih (List.cons_ne_nil _ _)
        (fun x hx => hne x (List.mem_cons_of_mem _ hx))
      refine ⟨lst, ?_, b', List.mem_cons_of_mem _ hb', hmem⟩
      show (b ++ [] :: linesOf (b2 :: rest)).getLast? = some lst
      rw [List.getLast?_append]
      have h2 : ([] :: linesOf (b2 :: rest)).getLast? = some lst := by
        have : ([] :: linesOf (b2 :: rest)) = [([] : Str)] ++ linesOf (b2 :: rest) := rfl
        rw [this, List.getLast?_append, hl]
        rfl
      rw [h2]
      rfl

theorem rustLines_normText (bs : List (List Str)) (hbs : bs ≠ [])
    (hne : ∀ b ∈ bs, b ≠ []) (hgood : ∀ b ∈ bs, ∀ l ∈ b, goodLine l = true) :
    rustLines (normalizedText bs) = linesOf bs := by
  have hA : normalizedText bs = joinWith ("\n".toList) (linesOf bs) :=
    normText_eq_joinNl bs hne
  obtain ⟨lst, hLlast, bl, hbl, hmeml⟩ := linesOf_getLast bs hbs hne
  have hlstne : lst ≠ [] := (goodLine_unpack (hgood bl hbl lst hmeml)).1
  have hLne : linesOf bs ≠ [] := by
    intro h0
    rw [h0] at hLlast
    simp at hLlast
  have hnonl : ∀ l ∈ linesOf bs, ∀ c ∈ l, ¬c = '\n' := by
    intro l hl c hc
    exact (linesOf_no_nl_cr hgood l hl c hc).1
  have hsegs : splitOnNl (normalizedText bs) = linesOf bs := by
    rw [hA]
    exact splitOnNl_joinNl (linesOf bs) hLne hnonl
  have hsne : normalizedText bs ≠ [] := by
    intro h0
    rw [h0] at hsegs
    have h1 : ([[]] : List Str) = linesOf bs := hsegs
    rw [← h1] at hLlast
    have h2 : ([] : Str) = lst := by simpa using hLlast
    exact hlstne h2.symm
  cases hs : normalizedText bs with
  | nil => exact absurd hs hsne
  | cons d u =>
    rw [rustLines_cons d u, ← hs, hsegs, hLlast]
    cases hlst : lst with
    | nil => exact absurd hlst hlstne
    | cons c t =>
      show (linesOf bs).dropLast.map stripCr ++ [(some (c :: t)).getD []] = linesOf bs
      have hmapid : (linesOf bs).dropLast.map stripCr = (linesOf bs).dropLast := by
        refine map_id_of_mem ?_
        intro x hx
        refine stripCr_id ?_
        intro ch hch
        exact (linesOf_no_nl_cr hgood x (List.dropLast_subset _ hx) ch hch).2
      rw [hmapid]
      have hgd : (some (c :: t)).getD [] = c :: t := rfl
      rw [hgd, ← hlst]
      exact List.dropLast_append_getLast? lst hLlast

theorem chain_of_no_nl : ∀ (s : Str), (∀ c ∈ s, ¬c = '\n') →
    List.Chain' (fun a b : Char => a = '\n' → ¬b = '\n') s := by
  intro s
  induction s with
  | nil => intro _; exact List.chain'_nil
  | cons c t ih =>
    intro h
    rw [List.chain'_cons']
    refine ⟨?_, ih (fun x hx => h x (List.mem_cons_of_mem _ hx))⟩
    intro y _ hc
    exact absurd hc (h c (List.mem_cons_self _ _))

theorem joinNl_head {l : Str} (hl : l ≠ []) (L : List Str) :
    (joinWith ("\n".toList) (l :: L)).head? = l.head? := by
  cases L with
  | nil => rfl
  | cons y ys =>
    rw [joinWith_cons2, List.append_assoc, List.head?_append]
    cases l with
    | nil => exact absurd rfl hl
    | cons c t => rfl

theorem chain_joinNl : ∀ (L : List Str), (∀ l ∈ L, l ≠ [] ∧ ∀ c ∈ l, ¬c = '\n') →
    List.Chain' (fun a b : Char => a = '\n' → ¬b = '\n')
      (joinWith ("\n".toList) L) := by
  intro L
  induction L with
  | nil => intro _; exact List.chain'_nil
  | cons l L' ih =>
    intro h
    obtain ⟨hlne, hlnl⟩ := h l (List.mem_cons_self _ _)
    cases L' with
    | nil => exact chain_of_no_nl l hlnl
    | cons l2 rest =>
      rw [joinWith_cons2, List.append_assoc, List.chain'_append]
      obtain ⟨hl2ne, hl2nl⟩ := h l2 (List.mem_cons_of_mem _ (List.mem_cons_self _ _))
      refine ⟨chain_of_no_nl l hlnl, ?_, ?_⟩
      · have hJ := ih (fun x hx => h x (List.mem_cons_of_mem _ hx))
        have hnl : ("\n".toList : Str) ++ joinWith ("\n".toList) (l2 :: rest) =
            '\n' :: joinWith ("\n".toList) (l2 :: rest) := rfl
        rw [hnl, List.chain'_cons']
        refine ⟨?_, hJ⟩
        intro y hy _
        rw [joinNl_head hl2ne rest] at hy
        exact hl2nl y (List.mem_of_mem_head? hy)
      · intro x hx y _ hxeq
        have hmem : x ∈ l := by
          have hx' : l.getLast? = some x := hx
          exact mem_of_getLast_some hx'
        exact absurd hxeq (hlnl x hmem)

theorem firstPara_chain : ∀ (s : Str),
    List.Chain' (fun a b : Char => a = '\n' → ¬b = '\n') s → firstPara s = s := by
  intro s
  induction s with
  | nil => intro _; rfl
  | cons c rest ih =>
    intro h
    rw [List.chain'_cons'] at h
    obtain ⟨hhd, htl⟩ := h
    have hcond : (decide (c = '\n') && (rest.head? == some '\n')) = false := by
      cases hdc : decide (c = '\n') with
      | false => rfl
      | true =>
        have hc : c = '\n' := of_decide_eq_true hdc
        simp only [Bool.true_and]
        cases hrh : rest.head? with
        | none => rfl
        | some y =>
          have hy : ¬y = '\n' := hhd y (by rw [hrh]; rfl) hc
          simp [hy]
    simp only [firstPara, hcond, Bool.false_eq_true, if_false]
    rw [ih htl]

theorem firstPara_append_chain : ∀ (p : Str) (t : Str),
    List.Chain' (fun a b : Char => a = '\n' → ¬b = '\n') p →
    (∀ c, p.getLast? = some c → ¬c = '\n') →
    firstPara (p ++ '\n' :: '\n' :: t) = p := by
  intro p
  induction p with
  | nil =>
    intro t _ _
    rfl
  | cons c rest ih =>
    intro t hch hlast
    rw [List.chain'_cons'] at hch
    obtain ⟨hhd, htl⟩ := hch
    show firstPara (c :: (rest ++ '\n' :: '\n' :: t)) = c :: rest
    have hcond : (decide (c = '\n') &&
        ((rest ++ '\n' :: '\n' :: t).head? == some '\n')) = false := by
      cases rest with
      | nil =>
        have hc : ¬c = '\n' := hlast c rfl
        simp [hc]
      | cons r rs =>
        cases hdc : decide (c = '\n') with
        | false => rfl
        | true =>
          have hc : c = '\n' := of_decide_eq_true hdc
          have hr : ¬r = '\n' := hhd r (by simp) hc
          simp [hr]
    simp only [firstPara, hcond, Bool.false_eq_true, if_false]
    congr 1
    refine ih t htl ?_
    intro x hx
    refine hlast x ?_
    cases rest with
    | nil => simp at hx
    | cons r rs => rw [List.getLast?_cons_cons]; exact hx

theorem splitWSAux_ws {c : Char} (hc : rustIsWhitespace c = true) : ∀ (a : Str)
    (cur : Str) (b : Str),
    splitWSAux (a ++ c :: b) cur = splitWSAux a cur ++ splitWSAux b [] := by
  intro a
  induction a with
  | nil =>
    intro cur b
    by_cases hcur : cur = []
    · simp [splitWSAux, hcur, hc]
    · simp [splitWSAux, hcur, hc]
  | cons d rest ih =>
    intro cur b
    by_cases hws : rustIsWhitespace d
    · by_cases hcur : cur = []
      · simp [splitWSAux, hws, hcur, ih]
      · simp [splitWSAux, hws, hcur, ih]
    · simp [splitWSAux, hws, ih]

theorem filter_keep_ws {c : Char} (hc : rustIsWhitespace c = true) (a b : Str) :
    (a ++ c :: b).filter (fun x => rustIsAlphanumeric x || rustIsWhitespace x) =
      a.filter (fun x => rustIsAlphanumeric x || rustIsWhitespace x) ++
      c :: b.filter (fun x => rustIsAlphanumeric x || rustIsWhitespace x) := by
  rw [List.filter_append, List.filter_cons]
  simp [hc]

theorem tokens_ws_append {c : Char} (hc : rustIsWhitespace c = true) (a b : Str) :
    splitWhitespace
        ((a ++ c :: b).filter (fun x => rustIsAlphanumeric x || rustIsWhitespace x)) =
      splitWhitespace (a.filter (fun x => rustIsAlphanumeric x || rustIsWhitespace x)) ++
      splitWhitespace (b.filter (fun x => rustIsAlphanumeric x || rustIsWhitespace x)) := by
  rw [filter_keep_ws hc]
  unfold splitWhitespace
  exact splitWSAux_ws hc _ [] _

theorem nfc_join2 (a b : Str) :
    normalize_for_comparison (joinWith (" ".toList) [a, b, []]) =
      normalize_for_comparison (a ++ '\n' :: b) := by
  have h1 : joinWith (" ".toList) [a, b, ([] : Str)] = a ++ ' ' :: (b ++ ' ' :: []) := by
    rw [joinWith_cons2, joinWith_cons2]
    simp [joinWith]
  rw [h1]
  unfold normalize_for_comparison
  rw [tokens_ws_append (by decide) a (b ++ ' ' :: []),
    tokens_ws_append (by decide) a b,
    tokens_ws_append (by decide) b []]
  have h2 : splitWhitespace
      (List.filter (fun x => rustIsAlphanumeric x || rustIsWhitespace x) []) =
      ([] : List Str) := rfl
  rw [h2, List.append_nil]

theorem nfc_join3 (a b c : Str) :
    normalize_for_comparison (joinWith (" ".toList) [a, b, c]) =
      normalize_for_comparison (a ++ '\n' :: (b ++ '\n' :: c)) := by
  have h1 : joinWith (" ".toList) [a, b, c] = a ++ ' ' :: (b ++ ' ' :: c) := by
    rw [joinWith_cons2, joinWith_cons2]
    simp [joinWith]
  rw [h1]
  unfold normalize_for_comparison
  rw [tokens_ws_append (by decide) a (b ++ ' ' :: c),
    tokens_ws_append (by decide) b c,
    tokens_ws_append (by decide) a (b ++ '\n' :: c),
    tokens_ws_append (by decide) b c]

theorem windows3_short : ∀ (ls : List Str), ls.length < 3 → windows3 ls = [] := by
  intro ls h
  match ls with
  | [] => rfl
  | [a] => rfl
  | [a, b] => rfl
  | a :: b :: c :: rest => simp at h; omega

theorem startScan_first_window {pat : Str} (x y z : Str) (rest : List Str)
    (hmatch : strContains
      (normalize_for_comparison (joinWith (" ".toList) [x, y, z])) pat = true) :
    startScanAux pat (windows3 (x :: y :: z :: rest)) 0 = 0 := by
  have hw : windows3 (x :: y :: z :: rest) = [x, y, z] :: windows3 (y :: z :: rest) := rfl
  rw [hw]
  simp only [startScanAux]
  rw [hmatch]
  simp

theorem joinNl_getLast_line : ∀ (L : List Str), L ≠ [] → (∀ l ∈ L, l ≠ []) →
    ∃ c l', (joinWith ("\n".toList) L).getLast? = some c ∧ l' ∈ L ∧
      l'.getLast? = some c := by
  intro L
  induction L with
  | nil => intro h; exact absurd rfl h
  | cons l L' ih =>
    intro _ hne
    cases L' with
    | nil =>
      have hl : l ≠ [] := hne l (List.mem_cons_self _ _)
      exact ⟨l.getLast hl, l, List.getLast?_eq_getLast l hl, List.mem_cons_self _ _,
        List.getLast?_eq_getLast l hl⟩
    | cons l2 rest =>
      obtain ⟨c, l', hJ, hl', hc⟩ := ih (List.cons_ne_nil _ _)
        (fun x hx => hne x (List.mem_cons_of_mem _ hx))
      refine ⟨c, l', ?_, List.mem_cons_of_mem _ hl', hc⟩
      rw [joinWith_cons2, List.append_assoc, List.getLast?_append,
        List.getLast?_append, hJ]
      rfl

theorem firstPara_trim_normText (b0 : List Str) (bs' : List (List Str))
    (hb0 : b0 ≠ [])
    (hne : ∀ b ∈ b0 :: bs', b ≠ [])
    (hgood : ∀ b ∈ b0 :: bs', ∀ l ∈ b, goodLine l = true)
    (hhead : rustTrimStart ((linesOf (b0 :: bs')).headD []) =
      (linesOf (b0 :: bs')).headD []) :
    rustTrim (firstPara (normalizedText (b0 :: bs'))) =
      joinWith ("\n".toList) b0 := by
  have hlines : ∀ l ∈ b0, l ≠ [] ∧ ∀ c ∈ l, ¬c = '\n' := by
    intro l hl
    obtain ⟨h1, _, h3, _, _⟩ :=
      goodLine_unpack (hgood b0 (List.mem_cons_self _ _) l hl)
    exact ⟨h1, fun c hc => (h3 c hc).1⟩
  have hch : List.Chain' (fun a b : Char => a = '\n' → ¬b = '\n')
      (joinWith ("\n".toList) b0) := chain_joinNl b0 hlines
  obtain ⟨c, l', hp0l, hl'mem, hl'last⟩ :=
    joinNl_getLast_line b0 hb0 (fun l hl => (hlines l hl).1)
  have hcws : rustIsWhitespace c = false := by
    obtain ⟨_, hte, _, _, _⟩ :=
      goodLine_unpack (hgood b0 (List.mem_cons_self _ _) l' hl'mem)
    exact last_not_ws_of_trimEnd_fixed hte hl'last
  have hlastnl : ∀ ch, (joinWith ("\n".toList) b0).getLast? = some ch → ¬ch = '\n' := by
    intro ch hch'
    rw [hp0l] at hch'
    have hcc : c = ch := by
      simpa using hch'
    subst hcc
    intro h0
    rw [h0] at hcws
    exact absurd hcws (by decide)
  have hfp : firstPara (normalizedText (b0 :: bs')) = joinWith ("\n".toList) b0 := by
    cases bs' with
    | nil =>
      have h0 : normalizedText [b0] = joinWith ("\n".toList) b0 := rfl
      rw [h0]
      exact firstPara_chain _ hch
    | cons b2 rest =>
      have hm : (b2 :: rest).map (joinWith ("\n".toList)) =
          joinWith ("\n".toList) b2 :: rest.map (joinWith ("\n".toList)) := rfl
      have hshape : normalizedText (b0 :: b2 :: rest) =
          joinWith ("\n".toList) b0 ++ '\n' :: '\n' ::
            joinWith ("\n\n".toList)
              (joinWith ("\n".toList) b2 :: rest.map (joinWith ("\n".toList))) := by
        show joinWith ("\n\n".toList)
            (joinWith ("\n".toList) b0 :: (b2 :: rest).map (joinWith ("\n".toList))) = _
        rw [hm, joinWith_cons2]
        have hnn : ("\n\n".toList : Str) = '\n' :: '\n' :: [] := rfl
        rw [hnn]
        simp
      rw [hshape]
      exact firstPara_append_chain _ _ hch hlastnl
  rw [hfp]
  have hTE : rustTrimEnd (joinWith ("\n".toList) b0) = joinWith ("\n".toList) b0 :=
    trimEnd_fixed_of_last_not_ws hp0l hcws
  obtain ⟨l0, b0', hb0s⟩ : ∃ l0 b0', b0 = l0 :: b0' := by
    cases b0 with
    | nil => exact absurd rfl hb0
    | cons a b => exact ⟨a, b, rfl⟩
  have hl0ne : l0 ≠ [] := (hlines l0 (by rw [hb0s]; exact List.mem_cons_self _ _)).1
  obtain ⟨c0, t0, hl0s⟩ : ∃ c0 t0, l0 = c0 :: t0 := by
    cases l0 with
    | nil => exact absurd rfl hl0ne
    | cons a b => exact ⟨a, b, rfl⟩
  have hl0head : (linesOf (b0 :: bs')).headD [] = l0 := by
    rw [hb0s]
    cases bs' with
    | nil => rfl
    | cons b2 rest => rfl
  rw [hl0head, hl0s] at hhead
  have hc0 : rustIsWhitespace c0 = false := head_not_ws_of_trimStart_fixed hhead
  have hTS : rustTrimStart (joinWith ("\n".toList) b0) =
      joinWith ("\n".toList) b0 := by
    rw [hb0s, hl0s]
    cases b0' with
    | nil => exact trimStart_cons_not_ws t0 hc0
    | cons l1 b0'' =>
      rw [joinWith_cons2]
      have hsh : (c0 :: t0) ++ "\n".toList ++
          joinWith ("\n".toList) (l1 :: b0'') =
          c0 :: (t0 ++ "\n".toList ++ joinWith ("\n".toList) (l1 :: b0'')) := by
        simp
      rw [hsh]
      exact trimStart_cons_not_ws _ hc0
  unfold rustTrim
  rw [hTE, hTS]

theorem normalizedInput_unpack {bs : List (List Str)} (h : normalizedInput bs = true) :
    bs ≠ [] ∧ (∀ b ∈ bs, b ≠ [] ∧ ∀ l ∈ b, goodLine l = true) ∧
    (blocksOut BlockType.Normal bs).isSome = true ∧
    rustTrimStart ((linesOf bs).headD []) = (linesOf bs).headD [] ∧
    (bs.headD []).length ≤ 3 ∧
    (∀ l ∈ (linesOf bs).drop 1, isTrailerLine l = false) := by
  unfold normalizedInput at h
  simp only [Bool.and_eq_true, List.all_eq_true, Bool.not_eq_true', beq_iff_eq,
    decide_eq_true_eq] at h
  obtain ⟨⟨⟨⟨⟨h1, h2⟩, h3⟩, h4⟩, h5⟩, h6⟩ := h
  refine ⟨List.isEmpty_eq_false.mp h1, ?_, h3, h4, h5, ?_⟩
  · intro b hb
    have hb' := h2 b hb
    simp only [Bool.and_eq_true, Bool.not_eq_true', List.all_eq_true] at hb'
    exact ⟨List.isEmpty_eq_false.mp hb'.1, hb'.2⟩
  · intro l hl
    exact h6 l hl

theorem joinNl_pair (l0 l1 : Str) :
    joinWith ("\n".toList) [l0, l1] = l0 ++ '\n' :: l1 := by
  rw [joinWith_cons2]
  simp [joinWith_singleton]

theorem joinNl_triple (l0 l1 l2 : Str) :
    joinWith ("\n".toList) [l0, l1, l2] = l0 ++ '\n' :: (l1 ++ '\n' :: l2) := by
  rw [joinWith_cons2, joinWith_cons2]
  simp [joinWith_singleton]

theorem startIdx_zero_aux (b0 : List Str) (bs' : List (List Str))
    (hb0 : b0 ≠ [])
    (hne : ∀ b ∈ b0 :: bs', b ≠ [])
    (hgood : ∀ b ∈ b0 :: bs', ∀ l ∈ b, goodLine l = true)
    (hhead : rustTrimStart ((linesOf (b0 :: bs')).headD []) =
      (linesOf (b0 :: bs')).headD [])
    (hlen3 : b0.length ≤ 3) :
    startScanAux
      (normalize_for_comparison (rustTrim (firstPara (normalizedText (b0 :: bs')))))
      (windows3 (linesOf (b0 :: bs'))) 0 = 0 := by
  rw [firstPara_trim_normText b0 bs' hb0 hne hgood hhead]
  match b0, hb0 with
  | [l0], _ =>
    cases bs' with
    | nil =>
      rw [windows3_short (linesOf [[l0]]) (by simp [linesOf])]
      rfl
    | cons b2 rest =>
      have hb2 := hne b2 (List.mem_cons_of_mem _ (List.mem_cons_self _ _))
      obtain ⟨m0, b2', hb2s⟩ : ∃ m0 b2', b2 = m0 :: b2' := by
        cases b2 with
        | nil => exact absurd rfl hb2
        | cons a b => exact ⟨a, b, rfl⟩
      obtain ⟨T, hT⟩ : ∃ T, linesOf (b2 :: rest) = m0 :: T := by
        rw [hb2s]
        cases rest with
        | nil => exact ⟨b2', rfl⟩
        | cons r rs => exact ⟨b2' ++ [] :: linesOf (r :: rs), rfl⟩
      have hL : linesOf ([l0] :: b2 :: rest) = l0 :: [] :: m0 :: T := by
        show l0 :: [] :: linesOf (b2 :: rest) = l0 :: [] :: m0 :: T
        rw [hT]
      rw [hL]
      refine startScan_first_window l0 [] m0 T ?_
      rw [joinSpace_three]
      exact strContains_of_prefix (nfc_prefix_double_space l0 m0)
  | [l0, l1], _ =>
    cases bs' with
    | nil =>
      rw [windows3_short (linesOf [[l0, l1]]) (by simp [linesOf])]
      rfl
    | cons b2 rest =>
      have hL : linesOf ([l0, l1] :: b2 :: rest) =
          l0 :: l1 :: [] :: linesOf (b2 :: rest) := rfl
      rw [hL]
      refine startScan_first_window l0 l1 [] (linesOf (b2 :: rest)) ?_
      rw [joinNl_pair, nfc_join2]
      exact strContains_of_prefix (List.prefix_refl _)
  | [l0, l1, l2], _ =>
    cases bs' with
    | nil =>
      have hL : linesOf [[l0, l1, l2]] = l0 :: l1 :: l2 :: [] := rfl
      rw [hL]
      refine startScan_first_window l0 l1 l2 [] ?_
      rw [joinNl_triple, nfc_join3]
      exact strContains_of_prefix (List.prefix_refl _)
    | cons b2 rest =>
      have hL : linesOf ([l0, l1, l2] :: b2 :: rest) =
          l0 :: l1 :: l2 :: [] :: linesOf (b2 :: rest) := rfl
      rw [hL]
      refine startScan_first_window l0 l1 l2 ([] :: linesOf (b2 :: rest)) ?_
      rw [joinNl_triple, nfc_join3]
      exact strContains_of_prefix (List.prefix_refl _)
  | l0 :: l1 :: l2 :: l3 :: b0'', _ =>
    simp at hlen3

theorem trail_clear_of_all {L : List Str}
    (h : ∀ l ∈ L.drop 1, isTrailerLine l = false) :
    ∀ i < L.length, 0 < i → isTrailerLine (L.getD i []) = false := by
  intro i hi hpos
  obtain ⟨j, rfl⟩ : ∃ j, i = 1 + j := ⟨i - 1, by omega⟩
  have hj : j < (L.drop 1).length := by
    rw [List.length_drop]
    omega
  have hdg : (L.drop 1)[j] = L[1 + j] := List.getElem_drop L
  have hgd : L.getD (1 + j) [] = L[1 + j] := List.getD_eq_getElem L [] hi
  rw [hgd, ← hdg]
  exact h _ (List.getElem_mem hj)

theorem boundaries_of_normalized (bs : List (List Str))
    (h : normalizedInput bs = true) :
    find_content_boundaries (normalizedText bs) (normalizedText bs) =
      (0, (linesOf bs).length) := by
  obtain ⟨hbs, hblocks, _, hhead, hlen3, htrail⟩ := normalizedInput_unpack h
  have hne : ∀ b ∈ bs, b ≠ [] := fun b hb => (hblocks b hb).1
  have hgood : ∀ b ∈ bs, ∀ l ∈ b, goodLine l = true := fun b hb => (hblocks b hb).2
  have hRL : rustLines (normalizedText bs) = linesOf bs :=
    rustLines_normText bs hbs hne hgood
  obtain ⟨b0, bs', hbss⟩ : ∃ b0 bs', bs = b0 :: bs' := by
    cases bs with
    | nil => exact absurd rfl hbs
    | cons a b => exact ⟨a, b, rfl⟩
  subst hbss
  have hstart : startScanAux
      (normalize_for_comparison (rustTrim (firstPara (normalizedText (b0 :: bs')))))
      (windows3 (linesOf (b0 :: bs'))) 0 = 0 :=
    startIdx_zero_aux b0 bs' (hne b0 (List.mem_cons_self _ _)) hne hgood hhead hlen3
  have hend : endScan (linesOf (b0 :: bs')) 0 = (linesOf (b0 :: bs')).length :=
    endScan_all_clear _ (trail_clear_of_all htrail)
  simp only [find_content_boundaries]
  rw [hRL, hstart, hend]

/-- C8: the claim states that running `normalize_markdown` on its own output
(with the same text as the plain reference) returns the text unchanged. That
is refuted by the trailer counterexample (`"Alpha\n\nSee Contents"`
normalizes to `"Alpha"`). Amended: idempotence holds for every input in
normalized block form — blank-line-separated blocks of non-empty,
right-trimmed, newline- and carriage-return-free lines that the header
splitter leaves whole, where each block is a single unindented prose or
header line, a list continuation re-emitted unchanged, a list item indented
exactly at the engine's effective depth, or a multi-line run of such list
items, and where additionally the first line carries no leading whitespace,
the first block spans at most three lines (so the boundary window scan
anchors at line 0), and no line after the first satisfies the trailer
condition of the backward boundary scan. -/
theorem C8_idempotent_on_normalized_blocks (bs : List (List Str))
    (h : normalizedInput bs = true) :
    normalize_markdown (normalizedText bs) (normalizedText bs) =
      some (normalizedText bs) := by
  obtain ⟨hbs, hblocks, hbo, hhead, hlen3, htrail⟩ := normalizedInput_unpack h
  have hne : ∀ b ∈ bs, b ≠ [] := fun b hb => (hblocks b hb).1
  have hgood : ∀ b ∈ bs, ∀ l ∈ b, goodLine l = true := fun b hb => (hblocks b hb).2
  obtain ⟨prevOut, hpo⟩ := Option.isSome_iff_exists.mp hbo
  have hRL : rustLines (normalizedText bs) = linesOf bs :=
    rustLines_normText bs hbs hne hgood
  have hFCB := boundaries_of_normalized bs h
  have hCL : ((rustLines (normalizedText bs)).take
      (find_content_boundaries (normalizedText bs) (normalizedText bs)).2).drop
      (find_content_boundaries (normalizedText bs) (normalizedText bs)).1 =
      linesOf bs := by
    rw [hRL, hFCB]
    simp [List.take_length]
  have hfold := foldBlocks (linesOf bs) bs 0 BlockType.Normal prevOut [] hgood hpo
    (by simp)
  simp only [isListItemB] at hfold
  simp only [normalize_markdown]
  rw [hCL]
  have henum : (linesOf bs).enum = List.enumFrom 0 (linesOf bs) := rfl
  rw [henum, hfold]
  show some (joinWith ("\n\n".toList)
      ((flushNl ([] ++ bs.map (joinWith ("\n".toList))) []).filter
        (fun p => !p.isEmpty))) = some (normalizedText bs)
  have hres : flushNl ([] ++ bs.map (joinWith ("\n".toList))) [] =
      bs.map (joinWith ("\n".toList)) := by
    simp [flushNl]
  rw [hres]
  have hfil : (bs.map (joinWith ("\n".toList))).filter (fun p => !p.isEmpty) =
      bs.map (joinWith ("\n".toList)) := by
    rw [List.filter_eq_self]
    intro a ha
    obtain ⟨b, hb, heq⟩ := List.mem_map.mp ha
    obtain ⟨x, xs, hbx⟩ : ∃ x xs, b = x :: xs := by
      cases b with
      | nil => exact absurd rfl (hne [] hb)
      | cons x xs => exact ⟨x, xs, rfl⟩
    have hxne : x ≠ [] := by
      refine (goodLine_unpack (hgood b hb x ?_)).1
      rw [hbx]
      exact List.mem_cons_self _ _
    have hane : a ≠ [] := by
      rw [← heq, hbx]
      exact joinWith_ne_nil ("\n".toList) x xs hxne
    simp only [Bool.not_eq_true']
    exact List.isEmpty_eq_false.mpr hane
  rw [hfil]
  rfl

theorem C8_idempotent_on_normalized_blocks_witness :
    normalizedInput [["# Title".toList],
      ["1. a".toList, "    a. x".toList, "2. b".toList],
      ["Body text".toList]] = true ∧
    normalize_markdown
      (normalizedText [["# Title".toList],
        ["1. a".toList, "    a. x".toList, "2. b".toList],
        ["Body text".toList]])
      (normalizedText [["# Title".toList],
        ["1. a".toList, "    a. x".toList, "2. b".toList],
        ["Body text".toList]]) =
      some (normalizedText [["# Title".toList],
        ["1. a".toList, "    a. x".toList, "2. b".toList],
        ["Body text".toList]]) :=
  ⟨by decide, C8_idempotent_on_normalized_blocks _ (by decide)⟩
